import Mathlib

/-!
Verification of the tabtools extension core (popup.js, background.js)
against its natural-language specification.

The development shallowly embeds the algorithmic core of the extension:
URL validation/sanitization/extraction, tab grouping by domain,
duplicate-tab detection, session merge-on-import, the import/export
codec checks, and window replay.  Strings are modelled as Lean `String`
(lists of characters); stateful browser calls are modelled as pure
functions on snapshots or as emitted command traces.
-/

set_option maxHeartbeats 1000000

namespace TabTools

/-- Lowercase an ASCII letter, leaving every other character unchanged.
Models JavaScript `toLowerCase()` on the ASCII range, which is the range
exercised by the extension's URL handling. -/
def lowerChar (c : Char) : Char :=
  if 65 ≤ c.toNat ∧ c.toNat ≤ 90 then Char.ofNat (c.toNat + 32) else c

/-- Lowercase every character of a string, modelling `s.toLowerCase()`. -/
def lowerStr (s : String) : String := String.mk (s.data.map lowerChar)

/-- ASCII letter test, as in the hostname/scheme character classes of the
source regexes. -/
def isAlphaCh (c : Char) : Bool :=
  decide ((65 ≤ c.toNat ∧ c.toNat ≤ 90) ∨ (97 ≤ c.toNat ∧ c.toNat ≤ 122))

/-- ASCII digit test. -/
def isDigitCh (c : Char) : Bool := decide (48 ≤ c.toNat ∧ c.toNat ≤ 57)

/-- ASCII alphanumeric test. -/
def isAlnumCh (c : Char) : Bool := isAlphaCh c || isDigitCh c

/-- The characters the source treats as suspicious and strips from URLs:
the set in the regex character class of `sanitizeUrl` and of the
`isValidUrl` path check, namely less-than, greater-than, apostrophe,
double quote and the two parentheses. -/
def susChar (c : Char) : Bool :=
  c == '<' || c == '>' || c == Char.ofNat 39 || c == '"' || c == '(' || c == ')'

/-- Drop every suspicious character, modelling
`.replace(/[<>'"()]/g, '')` from `sanitizeUrl`. -/
def removeSus (cs : List Char) : List Char := cs.filter (fun c => !susChar c)

/-- Fuelled worker for `removeTags`; the fuel is an upper bound on the
number of characters still to scan, making the recursion structural so
that concrete inputs reduce in the kernel. -/
def removeTagsF : Nat → List Char → List Char
  | 0, cs => cs
  | _ + 1, [] => []
  | fuel + 1, c :: cs =>
    if c = '<' then
      match cs.dropWhile (fun d => !(d == '>')) with
      | [] => c :: cs
      | _ :: rest => removeTagsF fuel rest
    else c :: removeTagsF fuel cs

/-- Remove HTML-tag-like substrings, modelling `.replace(/<[^>]*>/g, '')`
from `sanitizeUrl`: repeatedly delete the leftmost region from a
less-than sign up to the first following greater-than sign; a less-than
sign with no later greater-than sign is kept. -/
def removeTags (cs : List Char) : List Char := removeTagsF cs.length cs

/-- Strip a serialized URL exactly as `sanitizeUrl` does after
re-serialization: first tag removal, then suspicious-character removal. -/
def stripAll (cs : List Char) : List Char := removeSus (removeTags cs)

/-- Parsed URL components, mirroring the fields of the host `URL` object
that the source reads: `protocol` (here `scheme` without the colon),
`hostname` (`host`), `pathname` (`path`), plus the query (including its
leading question mark) and the fragment (including its leading hash) so
that `toString` can be reproduced. -/
structure UrlObj where
  scheme : List Char
  host : List Char
  path : List Char
  query : List Char
  frag : List Char
deriving DecidableEq

/-- Scheme body characters after the leading letter, per the URL
standard's scheme grammar. -/
def schemeRestChar (c : Char) : Bool := isAlnumCh c || c == '+' || c == '-' || c == '.'

/-- Scheme grammar: a letter followed by letters, digits, plus, minus or
dot. -/
def validScheme (l : List Char) : Bool :=
  match l with
  | [] => false
  | c :: cs => isAlphaCh c && cs.all schemeRestChar

/-- Forward slash and backslash.  After `scheme:` of a special scheme
the WHATWG parser's special-authority-ignore-slashes state consumes
every such character before reading the authority, so `http:///x` and
`http:\\x` both parse with host `x`. -/
def slashy (c : Char) : Bool := c == '/' || c == '\\'

/-- Hexadecimal digit value, accepting both letter cases. -/
def hexVal (c : Char) : Option Nat :=
  if 48 ≤ c.toNat ∧ c.toNat ≤ 57 then some (c.toNat - 48)
  else if 97 ≤ c.toNat ∧ c.toNat ≤ 102 then some (c.toNat - 87)
  else if 65 ≤ c.toNat ∧ c.toNat ≤ 70 then some (c.toNat - 55)
  else none

/-- Percent-decoding as the host parser applies it to the authority
before domain processing: a percent sign followed by two hexadecimal
digits becomes the decoded code unit, anything else is copied unchanged
(the model decodes per character rather than per UTF-8 byte, which
agrees with the platform on ASCII escapes). -/
def pctDecode : List Char → List Char
  | [] => []
  | [c] => [c]
  | [c, d] => [c, d]
  | c :: a :: b :: rest =>
    if c = '%' ∧ (hexVal a).isSome = true ∧ (hexVal b).isSome = true then
      Char.ofNat (16 * ((hexVal a).getD 0) + (hexVal b).getD 0) :: pctDecode rest
    else c :: pctDecode (a :: b :: rest)

/-- Characters the model rejects inside a hostname after
percent-decoding.  These are the forbidden domain code points of the
URL standard (C0 controls, DEL, and the listed punctuation, including a
percent sign that survives decoding); the model additionally keeps
colons (ports) and at signs (userinfo) in this set instead of
processing them. -/
def forbiddenHostChar (c : Char) : Bool :=
  decide (c.toNat < 32) || decide (c.toNat = 127) ||
  c == ' ' || c == '#' || c == '%' || c == '/' || c == ':' || c == '<' || c == '>' ||
  c == '?' || c == '@' || c == '[' || c == '\\' || c == ']' || c == '^' || c == '|'

/-- Modelled platform behavior: a simplified WHATWG-style URL parser
standing in for the host environment's `new URL(...)`, which the source
calls in `isValidUrl`, `sanitizeUrl` and `groupTabs`.  After a valid
special scheme and its colon it skips every slash and backslash (the
special-authority-ignore-slashes state), reads the authority up to the
next `/`, `?` or `#`, percent-decodes it and lowercases it, rejects an
empty host and hosts containing forbidden domain code points (ports,
userinfo and a backslash in the authority are rejected rather than
processed), and synthesises the root path when the path is absent, so
that serializing `http://a.com` yields `http://a.com/` as the platform
does.  No IDNA mapping, no percent-encoding on output and no
dot-segment normalisation is performed. -/
def parseUrlChars (cs : List Char) : Option UrlObj :=
  let sch := cs.takeWhile (fun c => !(c == ':'))
  let r1 := cs.dropWhile (fun c => !(c == ':'))
  if r1.take 1 = [':'] ∧ validScheme sch = true then
    let r2 := (r1.drop 1).dropWhile slashy
    let auth := r2.takeWhile (fun c => !(c == '/' || c == '?' || c == '#'))
    let r3 := r2.dropWhile (fun c => !(c == '/' || c == '?' || c == '#'))
    let host := (pctDecode auth).map lowerChar
    if host ≠ [] ∧ host.all (fun c => !forbiddenHostChar c) then
      let preFrag := r3.takeWhile (fun c => !(c == '#'))
      let frag := r3.dropWhile (fun c => !(c == '#'))
      let p := preFrag.takeWhile (fun c => !(c == '?'))
      let query := preFrag.dropWhile (fun c => !(c == '?'))
      some ⟨sch.map lowerChar, host, if p = [] then ['/'] else p, query, frag⟩
    else none
  else none

/-- Serialization of a parsed URL, modelling `urlObj.toString()` under
the simplifications of `parseUrlChars`. -/
def serializeUrl (u : UrlObj) : List Char :=
  u.scheme ++ ':' :: '/' :: '/' :: (u.host ++ u.path ++ u.query ++ u.frag)

/-- The protocol allow-list check
`['http:', 'https:', 'ftp:'].includes(urlObj.protocol)` shared by
`isValidUrl` and `sanitizeUrl`. -/
def allowedProtocol (u : UrlObj) : Bool :=
  u.scheme ++ [':'] == "http:".data || u.scheme ++ [':'] == "https:".data ||
  u.scheme ++ [':'] == "ftp:".data

/-- Core of `sanitizeUrl` (popup.js): parse the URL, fail closed to the
empty string when parsing fails or the protocol is not allowed, and
otherwise re-serialize and strip tag-like substrings and suspicious
characters. -/
def sanitizeUrlChars (cs : List Char) : List Char :=
  match parseUrlChars cs with
  | none => []
  | some u => if allowedProtocol u then stripAll (serializeUrl u) else []

/-- Split a character list at every occurrence of a separator, modelling
JavaScript `String.prototype.split` with a single-character separator
(an empty input yields one empty field). -/
def splitOnChar (sep : Char) : List Char → List (List Char)
  | [] => [[]]
  | c :: cs =>
    if c = sep then [] :: splitOnChar sep cs
    else
      match splitOnChar sep cs with
      | [] => [[c]]
      | l :: ls => (c :: l) :: ls

/-- One dot-separated hostname label of the validation regex in
`isValidUrl`: one to sixty-three characters, alphanumeric at both ends,
alphanumeric or hyphen inside. -/
def validLabel (l : List Char) : Bool :=
  match l with
  | [] => false
  | c :: cs =>
    isAlphaCh c || isDigitCh c |> fun hd =>
      hd && (c :: cs).length ≤ 63 && cs.all (fun d => isAlnumCh d || d == '-') &&
        (match cs.getLast? with
         | none => true
         | some d => isAlnumCh d)

/-- Hostname grammar of the validation regex in `isValidUrl`: at least
two labels, every label but the last a `validLabel`, and the final label
at least two purely alphabetic characters. -/
def validHostname (host : List Char) : Bool :=
  let labels := splitOnChar '.' host
  2 ≤ labels.length && labels.dropLast.all validLabel &&
    (match labels.getLast? with
     | none => false
     | some lst => 2 ≤ lst.length && lst.all isAlphaCh)

/-- Core of `isValidUrl` (popup.js): URL must parse, protocol must be in
the allow-list, the hostname must match the conservative DNS grammar,
and the pathname must contain no suspicious character. -/
def isValidUrlChars (cs : List Char) : Bool :=
  match parseUrlChars cs with
  | none => false
  | some u => allowedProtocol u && validHostname u.host && !(u.path.any susChar)

/-- The source's `isValidUrl`, lifted to `String`. -/
def isValidUrl (s : String) : Bool := isValidUrlChars s.data

/-- JavaScript regex whitespace class, the complement of `[^\s]` in the
extraction regex. -/
def jsSpace (c : Char) : Bool :=
  c == ' ' || c == Char.ofNat 9 || c == Char.ofNat 10 || c == Char.ofNat 11 ||
  c == Char.ofNat 12 || c == Char.ofNat 13 || c == Char.ofNat 160 ||
  c == Char.ofNat 5760 || decide (8192 ≤ c.toNat ∧ c.toNat ≤ 8202) ||
  c == Char.ofNat 8232 || c == Char.ofNat 8233 || c == Char.ofNat 8239 ||
  c == Char.ofNat 8287 || c == Char.ofNat 12288 || c == Char.ofNat 65279

/-- JavaScript line terminators, the characters the regex dot does not
match. -/
def lineTerm (c : Char) : Bool :=
  c == Char.ofNat 10 || c == Char.ofNat 13 || c == Char.ofNat 8232 || c == Char.ofNat 8233

/-- Case-insensitive literal prefix match; on success returns the
matched characters in their original case together with the remainder,
modelling how a case-insensitive regex literal consumes input. -/
def dropCaseless : List Char → List Char → Option (List Char × List Char)
  | [], cs => some ([], cs)
  | _ :: _, [] => none
  | p :: ps, c :: cs =>
    if lowerChar c = p then
      match dropCaseless ps cs with
      | some (m, r) => some (c :: m, r)
      | none => none
    else none

/-- Scheme alternation `(https?|ftp)://` of the extraction regex at the
current position: the optional `s` is greedy, so `https://` is tried
before `http://`, then `ftp://`. -/
def schemeToken (cs : List Char) : Option (List Char × List Char) :=
  match dropCaseless "https://".data cs with
  | some x => some x
  | none =>
    match dropCaseless "http://".data cs with
    | some x => some x
    | none => dropCaseless "ftp://".data cs

/-- One attempt of the extraction regex
`((https?|ftp):\/\/[^\s\/$.?#].[^\s]*)` anchored at the current
position: scheme, one character outside `[\s/$.?#]`, one character that
is not a line terminator, then a greedy run of non-whitespace. -/
def urlTokenAt (cs : List Char) : Option (List Char × List Char) :=
  match schemeToken cs with
  | none => none
  | some (m, r) =>
    match r with
    | c1 :: c2 :: r2 =>
      if !(jsSpace c1 || c1 == '/' || c1 == '$' || c1 == '.' || c1 == '?' || c1 == '#')
          && !(lineTerm c2) then
        some (m ++ c1 :: c2 :: r2.takeWhile (fun c => !jsSpace c),
          r2.dropWhile (fun c => !jsSpace c))
      else none
    | _ => none

/-- Fuelled scan loop of `extractUrls`: at each position try the regex;
on a match, emit it and continue after the match (the `exec` loop with
its advancing `lastIndex`), otherwise advance one character.  The fuel
is the remaining length, which every step strictly decreases, so fuel
never runs out for the initial call. -/
def scanUrlsF : Nat → List Char → List (List Char)
  | 0, _ => []
  | _ + 1, [] => []
  | fuel + 1, c :: cs =>
    match urlTokenAt (c :: cs) with
    | some (tok, r) => tok :: scanUrlsF fuel r
    | none => scanUrlsF fuel cs

/-- All regex matches of the extraction pattern, leftmost first,
non-overlapping. -/
def scanUrls (cs : List Char) : List (List Char) := scanUrlsF cs.length cs

/-- The source's `extractUrls` (popup.js): scan the text for URL-shaped
matches, keep those passing `isValidUrl`, sanitize each survivor, and
finally drop empty strings (`.filter(Boolean)`). -/
def extractUrls (text : String) : List String :=
  ((((scanUrls text.data).foldl
      (fun acc m => if isValidUrlChars m then acc ++ [sanitizeUrlChars m] else acc)
      []).filter (fun s => !s.isEmpty)).map String.mk)

/-- Snapshot of one open tab: the host-assigned id used to issue
commands, and the tab's URL. -/
structure Tab where
  id : Nat
  url : String
deriving DecidableEq

/-- Join hostname labels back with dots, modelling
`parts.join('.')`. -/
def joinDots : List (List Char) → List Char
  | [] => []
  | [l] => l
  | l :: ls => l ++ '.' :: joinDots ls

/-- The last two dot-separated hostname labels,
`parts.slice(-2).join('.')` from `groupTabs`. -/
def baseDomainOf (host : List Char) : String :=
  let parts := splitOnChar '.' host
  String.mk (joinDots (parts.drop (parts.length - 2)))

/-- The leading hostname labels, `parts.slice(0, -2).join('.')` from
`groupTabs`. -/
def subdomainOf (host : List Char) : String :=
  let parts := splitOnChar '.' host
  String.mk (joinDots (parts.take (parts.length - 2)))

/-- Grouping key of `groupTabs`: base domain and subdomain of the
parsed hostname.  The fallback key for an unparseable URL is never used,
because `groupTabs` aborts on any unparseable URL. -/
def tabKey (t : Tab) : String × String :=
  match parseUrlChars t.url.data with
  | some u => (baseDomainOf u.host, subdomainOf u.host)
  | none => ("", "")

/-- Lexicographic order on (baseDomain, subdomain) keys.  `groupTabs`
sorts the outer object keys (base domains) and, inside each, the inner
object keys (subdomains) with JavaScript's default string sort, which
compares strings by their code units; the comparison is expressed on
the underlying character lists. -/
def keyLE (a b : String × String) : Prop :=
  a.1.data < b.1.data ∨ (a.1.data = b.1.data ∧ a.2.data ≤ b.2.data)

instance : DecidableRel keyLE := fun a b =>
  inferInstanceAs (Decidable (a.1.data < b.1.data ∨ (a.1.data = b.1.data ∧ a.2.data ≤ b.2.data)))

instance : IsTotal (String × String) keyLE := ⟨by
  intro a b
  rcases lt_trichotomy a.1.data b.1.data with h | h | h
  · exact Or.inl (Or.inl h)
  · rcases le_total a.2.data b.2.data with h2 | h2
    · exact Or.inl (Or.inr ⟨h, h2⟩)
    · exact Or.inr (Or.inr ⟨h.symm, h2⟩)
  · exact Or.inr (Or.inl h)⟩

instance : IsTrans (String × String) keyLE := ⟨by
  intro a b c hab hbc
  rcases hab with h1 | ⟨h1, h1'⟩ <;> rcases hbc with h2 | ⟨h2, h2'⟩
  · exact Or.inl (h1.trans h2)
  · exact Or.inl (by rw [← h2]; exact h1)
  · exact Or.inl (by rw [h1]; exact h2)
  · exact Or.inr ⟨h1.trans h2, h1'.trans h2'⟩⟩

instance : IsAntisymm (String × String) keyLE := ⟨by
  intro a b hab hba
  rcases a with ⟨⟨a1⟩, ⟨a2⟩⟩
  rcases b with ⟨⟨b1⟩, ⟨b2⟩⟩
  rcases hab with h1 | ⟨h1, h1'⟩ <;> rcases hba with h2 | ⟨h2, h2'⟩
  · exact absurd (show b1 < a1 from h2) (lt_asymm (show a1 < b1 from h1))
  · have he : b1 = a1 := h2
    have hl : a1 < b1 := h1
    rw [he] at hl
    exact absurd hl (lt_irrefl _)
  · have he : a1 = b1 := h1
    have hl : b1 < a1 := h2
    rw [he] at hl
    exact absurd hl (lt_irrefl _)
  · have he : a1 = b1 := h1
    have hle1 : a2 ≤ b2 := h1'
    have hle2 : b2 ≤ a2 := h2'
    rw [he, le_antisymm hle1 hle2]⟩

/-- JavaScript's default `Array.prototype.sort` compares strings by
UTF-16 code units; the comparison is expressed on the underlying
character lists. -/
def strLE (a b : String) : Prop := a.data ≤ b.data

instance : DecidableRel strLE := fun a b =>
  inferInstanceAs (Decidable (a.data ≤ b.data))

instance : IsTotal String strLE := ⟨fun a b => le_total a.data b.data⟩

instance : IsTrans String strLE :=
  ⟨fun a b c hab hbc => le_trans (show a.data ≤ b.data from hab) hbc⟩

instance : IsAntisymm String strLE := ⟨by
  intro a b hab hba
  rcases a with ⟨a1⟩
  rcases b with ⟨b1⟩
  have h1 : a1 ≤ b1 := hab
  have h2 : b1 ≤ a1 := hba
  rw [le_antisymm h1 h2]⟩

/-- The own method names of `Object.prototype`.  Reading one of them on
a plain object through the prototype chain yields a function, which is
truthy, so the first pass of `groupTabs` never creates an own key for
such a name, and the subsequent `.push` on the function throws.  URL
hostnames are lowercased by the parser, so among these only
`constructor` (besides the separately handled `__proto__` accessor) can
actually collide with a baseDomain or subdomain string. -/
def protoBuiltin (s : String) : Bool :=
  s == "constructor" || s == "hasOwnProperty" || s == "isPrototypeOf" ||
  s == "propertyIsEnumerable" || s == "toLocaleString" || s == "toString" ||
  s == "valueOf" || s == "__defineGetter__" || s == "__defineSetter__" ||
  s == "__lookupGetter__" || s == "__lookupSetter__"

/-- A key that collides with an inherited property of a plain JavaScript
object: the `__proto__` accessor or an `Object.prototype` method. -/
def jsInherited (s : String) : Bool := s == "__proto__" || protoBuiltin s

/-- First-match lookup in an association list, modelling reading an own
property of a plain object (own string-keyed properties are unique). -/
def assocGet {α : Type} : List (String × α) → String → Option α
  | [], _ => none
  | (k, v) :: rest, q => if k = q then some v else assocGet rest q

/-- Replace the value at an existing key, or append a new binding,
modelling property assignment on a plain object: an update keeps the
property's insertion position, a new property goes last. -/
def assocSet {α : Type} : List (String × α) → String → α → List (String × α)
  | [], q, v => [(q, v)]
  | (k, w) :: rest, q, v =>
    if k = q then (q, v) :: rest else (k, w) :: assocSet rest q v

/-- First-pass state of `groupTabs` (popup.js): the own keys of the
plain object `groupedTabs` with their nested own keys and tab arrays,
the properties that prototype pollution has added to `Object.prototype`
itself, and whether an exception has been thrown. -/
structure GroupState where
  outer : List (String × List (String × List Tab))
  polluted : List (String × List Tab)
  aborted : Bool

/-- One iteration of the first grouping pass of `groupTabs`, modelling
the JavaScript property reads and writes on the plain object
`groupedTabs` faithfully, including the prototype chain:

* `groupedTabs[baseDomain]` is truthy when it is an own key, when
  `baseDomain` is `__proto__` (the inherited accessor returns
  `Object.prototype`), or when it is an `Object.prototype` method; only
  otherwise is an own empty object created.
* With an own (or freshly created) inner object, the inner read falls
  through to `Object.prototype` when `subdomain` is not an own key:
  a polluted own property of `Object.prototype` is a shared array and
  receives the push (the tab is stored but, not being an own key, never
  emitted); the `__proto__` accessor or a method is truthy but has no
  `push`, so the push throws and aborts the pass.
* When `baseDomain` is `__proto__` the inner target is
  `Object.prototype` itself: an absent `subdomain` is assigned there,
  polluting the prototype (reachable only with `subdomain` equal to the
  empty string, since the hostname `__proto__` has no further labels);
  `subdomain` equal to `__proto__` would hit the immutable-prototype
  setter and a method name would hit a push-less function, both
  throwing.
* When `baseDomain` is an `Object.prototype` method name (a one-label
  hostname, so `subdomain` is the empty string) the truthy function is
  used as the inner target: the tab is pushed into an array stored on
  the function object, which is never an own key of `groupedTabs`, so
  the state is observationally unchanged and the tab is dropped. -/
def groupStep (st : GroupState) (t : Tab) : GroupState :=
  if st.aborted then st
  else
    let bd := (tabKey t).1
    let sub := (tabKey t).2
    match assocGet st.outer bd with
    | some inner =>
      match assocGet inner sub with
      | some arr =>
        { st with outer := assocSet st.outer bd (assocSet inner sub (arr ++ [t])) }
      | none =>
        match assocGet st.polluted sub with
        | some arr => { st with polluted := assocSet st.polluted sub (arr ++ [t]) }
        | none =>
          if jsInherited sub then { st with aborted := true }
          else { st with outer := assocSet st.outer bd (assocSet inner sub [t]) }
    | none =>
      if bd = "__proto__" then
        match assocGet st.polluted sub with
        | some arr => { st with polluted := assocSet st.polluted sub (arr ++ [t]) }
        | none =>
          if jsInherited sub then { st with aborted := true }
          else { st with polluted := st.polluted ++ [(sub, [t])] }
      else if protoBuiltin bd then st
      else
        match assocGet st.polluted sub with
        | some arr =>
          { st with outer := st.outer ++ [(bd, [])],
                    polluted := assocSet st.polluted sub (arr ++ [t]) }
        | none =>
          if jsInherited sub then
            { st with outer := st.outer ++ [(bd, [])], aborted := true }
          else { st with outer := st.outer ++ [(bd, [(sub, [t])])] }

/-- Second pass of `groupTabs`: `Object.keys(...).sort()` over the outer
object, then over each inner object, concatenating the arrays into
`newOrder`.  `Object.keys` enumerates own keys only, so tabs pushed into
`Object.prototype` or onto one of its methods never appear. -/
def groupEmit (o : List (String × List (String × List Tab))) : List Tab :=
  ((List.insertionSort strLE (o.map Prod.fst)).map (fun bd =>
    match assocGet o bd with
    | none => []
    | some inner =>
      ((List.insertionSort strLE (inner.map Prod.fst)).map (fun sub =>
        match assocGet inner sub with
        | none => []
        | some arr => arr)).flatten)).flatten

/-- Net effect of the source's `groupTabs` on a snapshot: `new URL`
throws on the first unparseable tab URL, and the grouping passes throw
when a key collides with a push-less inherited property; every
exception is caught at the top and no move is issued, so the pass
reorders exactly when every URL parses and nothing aborts the fold. -/
def groupTabs (tabs : List Tab) : Option (List Tab) :=
  if tabs.all (fun t => (parseUrlChars t.url.data).isSome) then
    let st := tabs.foldl groupStep ⟨[], [], false⟩
    if st.aborted then none else some (groupEmit st.outer)
  else none

/-- The distinct base domains of a snapshot in ascending order: the
outer `Object.keys(...).sort()` of a collision-free first pass. -/
def sortedBds (tabs : List Tab) : List String :=
  List.insertionSort strLE ((tabs.map (fun t => (tabKey t).1)).dedup)

/-- The distinct subdomains grouped under one base domain, ascending:
the inner `Object.keys(...).sort()` of a collision-free first pass. -/
def sortedSubs (tabs : List Tab) (bd : String) : List String :=
  List.insertionSort strLE
    (((tabs.filter (fun t => (tabKey t).1 == bd)).map (fun t => (tabKey t).2)).dedup)

/-- The distinct (baseDomain, subdomain) keys in emission order: base
domains ascending and, within each, subdomains ascending. -/
def keysOf (tabs : List Tab) : List (String × String) :=
  ((sortedBds tabs).map (fun bd => (sortedSubs tabs bd).map (fun sub => (bd, sub)))).flatten

/-- The ordered bucket list the two passes produce when no key collides
with an inherited property: for each distinct key in emission order,
the input tabs with that key in their original order. -/
def domainBuckets (tabs : List Tab) : List (List Tab) :=
  (keysOf tabs).map (fun k => tabs.filter (fun t => decide (tabKey t = k)))

/-- The reordered tab sequence `newOrder` of the collision-free case. -/
def groupOrder (tabs : List Tab) : List Tab := (domainBuckets tabs).flatten

/-- Invariant of a collision-free first pass: no pollution and no
abort have occurred, the own outer keys are exactly the base domains
seen so far, each inner object's own keys are exactly the subdomains
seen with that base domain, and each array holds exactly the matching
tabs in input order. -/
structure OuterInv (ts : List Tab) (o : List (String × List (String × List Tab))) : Prop where
  nodupK : (o.map Prod.fst).Nodup
  memK : ∀ bd, ¬ assocGet o bd = none ↔ bd ∈ ts.map (fun t => (tabKey t).1)
  innerInv : ∀ bd i, assocGet o bd = some i →
    (i.map Prod.fst).Nodup ∧
    (∀ sub, ¬ assocGet i sub = none ↔ (bd, sub) ∈ ts.map tabKey) ∧
    (∀ sub arr, assocGet i sub = some arr →
      arr = ts.filter (fun t => decide (tabKey t = (bd, sub))))

/-- First-match lookup in an association list, modelling
`Map.prototype.get` (keys are unique in a JavaScript `Map`). -/
def mapGet : List (String × Tab) → String → Option Tab
  | [], _ => none
  | p :: m, k => if p.1 = k then some p.2 else mapGet m k

/-- Update-or-append, modelling `Map.prototype.set`: an existing key
keeps its position and gets the new value, a new key is appended. -/
def mapSet : List (String × Tab) → String → Tab → List (String × Tab)
  | [], k, v => [(k, v)]
  | p :: m, k, v => if p.1 = k then (k, v) :: m else p :: mapSet m k v

/-- Idempotent insertion, modelling `Set.prototype.add`. -/
def setAdd (l : List Nat) (x : Nat) : List Nat := if x ∈ l then l else l ++ [x]

/-- Loop state of `closeDuplicates`: the `uniqueURLs` map from
lowercased URL to its kept tab, and the `tabsToClose` id set. -/
structure DupState where
  seen : List (String × Tab)
  toClose : List Nat

/-- One iteration of the `closeDuplicates` scan: a repeated URL marks
the current tab for removal, unless the current tab is the active one,
in which case the previously kept tab is marked and the active tab
becomes the kept representative. -/
def dupStep (activeId : Nat) (st : DupState) (t : Tab) : DupState :=
  let url := lowerStr t.url
  match mapGet st.seen url with
  | some kept =>
    if t.id = activeId then ⟨mapSet st.seen url t, setAdd st.toClose kept.id⟩
    else ⟨st.seen, setAdd st.toClose t.id⟩
  | none => ⟨mapSet st.seen url t, st.toClose⟩

/-- The removal set computed by `closeDuplicates` (popup.js, called
`findDuplicates` in the specification): the ids accumulated by the
left-to-right scan. -/
def findDuplicates (tabs : List Tab) (activeId : Nat) : List Nat :=
  (tabs.foldl (dupStep activeId) ⟨[], []⟩).toClose

/-- First-occurrence set insertion used to count distinct strings. -/
def insertNew (ks : List String) (u : String) : List String :=
  if u ∈ ks then ks else ks ++ [u]

/-- The number of distinct strings in a list (size of the set of its
elements). -/
def distinctCount (l : List String) : Nat := (l.foldl insertNew []).length

/-- A saved session as built by `saveSession`. -/
structure Session where
  timestamp : Int
  tabCount : Nat
  urls : List String
  customName : Option String
deriving DecidableEq

/-- Merge identity key of a session, the template string
`${session.timestamp}_${session.urls[0]}` from `importSessions`; an
absent first URL renders as the string `undefined`, exactly as the
template string does. -/
def sessionKey (s : Session) : String :=
  toString s.timestamp ++ "_" ++
    (match s.urls.head? with
     | none => "undefined"
     | some u => u)

/-- Result of the pure merge step of `importSessions`. -/
structure MergeResult where
  merged : List Session
  addedCount : Nat
  skippedCount : Nat
deriving DecidableEq

/-- Pure core of `importSessions` (popup.js): collect the identity keys
of the existing sessions, drop every incoming session whose key is
already present, prepend the survivors to the existing collection, and
report the imported and skipped counts. -/
def mergeImport (incoming existing : List Session) : MergeResult :=
  let existingIds := existing.map sessionKey
  let newSessions := incoming.filter (fun s => !existingIds.contains (sessionKey s))
  ⟨newSessions ++ existing, newSessions.length, incoming.length - newSessions.length⟩

/-- A tab inside an export bundle window, with the fields
`generateURLList` writes and `importTabs` reads. -/
structure ImpTab where
  url : String
  active : Bool
  pinned : Bool
deriving DecidableEq

/-- A window inside an export bundle. -/
structure ImpWindow where
  focused : Bool
  state : String
  tabs : List ImpTab
deriving DecidableEq

/-- A parsed window-bundle JSON object; absent fields are `none`. -/
structure WindowsFile where
  version : Option Int
  windows : Option (List ImpWindow)

/-- A parsed session-bundle JSON object; absent fields are `none`.  A
`sessions` field that is not an array is modelled as absent, because
`Array.isArray` rejects it identically. -/
structure SessionsFile where
  version : Option Int
  sessions : Option (List Session)

/-- The import format error raised by the decoders. -/
inductive FormatError where
  | invalidFormat
deriving DecidableEq

/-- JavaScript truthiness of the numeric `version` field: absent
(`undefined`) and `0` are falsy, every other number is truthy. -/
def jsTruthy : Option Int → Bool
  | none => false
  | some v => !(v == 0)

/-- The validation of `importTabs` (background.js):
`if (!data.version || !data.windows) throw new Error('Invalid file format')`. -/
def decodeWindows (f : WindowsFile) : Except FormatError (List ImpWindow) :=
  match f.windows with
  | none => Except.error FormatError.invalidFormat
  | some ws =>
    if jsTruthy f.version then Except.ok ws else Except.error FormatError.invalidFormat

/-- The validation of `importSessions` (popup.js):
`if (!data.version || !Array.isArray(data.sessions)) throw`. -/
def decodeSessions (f : SessionsFile) : Except FormatError (List Session) :=
  match f.sessions with
  | none => Except.error FormatError.invalidFormat
  | some ss =>
    if jsTruthy f.version then Except.ok ss else Except.error FormatError.invalidFormat

/-- Net effect of `importSessions` on the stored collection: a failed
validation aborts before any storage write, a successful one stores the
merge result. -/
def importSessionsRun (f : SessionsFile) (stored : List Session) : List Session :=
  match decodeSessions f with
  | Except.error _ => stored
  | Except.ok incoming => (mergeImport incoming stored).merged

/-- Host calls issued during replay, in order. -/
inductive HostCmd where
  | createWindow (urls : List String) (focused : Bool)
  | setWindowState (state : String)
  | pinTab (index : Nat)
  | activateTab (index : Nat)
deriving DecidableEq

/-- Command trace of one window replay in `createWindows`
(background.js): create the window with its URLs and focus flag; apply
the persisted state only when its lowercasing is one of the three
recognized literals; pin the flagged tabs by position; activate the
first tab flagged active, if any. -/
def windowCmds (w : ImpWindow) : List HostCmd :=
  HostCmd.createWindow (w.tabs.map ImpTab.url) w.focused ::
    ((if lowerStr w.state ∈ ["minimized", "maximized", "normal"] then
        [HostCmd.setWindowState (lowerStr w.state)] else []) ++
      ((w.tabs.enum.filter (fun p => p.2.pinned)).map (fun p => HostCmd.pinTab p.1)) ++
      (match w.tabs.findIdx? ImpTab.active with
       | some i => [HostCmd.activateTab i]
       | none => []))

/-- Command trace of the whole sequential replay loop of
`createWindows`: windows strictly in order, one at a time. -/
def replayWindows (ws : List ImpWindow) : List HostCmd := (ws.map windowCmds).flatten

theorem toNat_ofNat_small (n : Nat) (h : n < 55296) : (Char.ofNat n).toNat = n := by
  have hv : n.isValidChar := Or.inl h
  simp [Char.ofNat, hv, Char.ofNatAux, Char.toNat, UInt32.toNat]

theorem lowerChar_eq_of_upper {c : Char} (h : 65 ≤ c.toNat ∧ c.toNat ≤ 90) :
    lowerChar c = Char.ofNat (c.toNat + 32) := by
  simp [lowerChar, h]

theorem lowerChar_eq_of_not_upper {c : Char} (h : ¬ (65 ≤ c.toNat ∧ c.toNat ≤ 90)) :
    lowerChar c = c := by
  simp only [lowerChar, if_neg h]

theorem lowerChar_idem (c : Char) : lowerChar (lowerChar c) = lowerChar c := by
  by_cases h : 65 ≤ c.toNat ∧ c.toNat ≤ 90
  · rw [lowerChar_eq_of_upper h]
    have h2 : (Char.ofNat (c.toNat + 32)).toNat = c.toNat + 32 :=
      toNat_ofNat_small _ (by omega)
    exact lowerChar_eq_of_not_upper (by rw [h2]; omega)
  · rw [lowerChar_eq_of_not_upper h, lowerChar_eq_of_not_upper h]

theorem lowerChar_alpha {c : Char} (h : isAlphaCh c = true) :
    isAlphaCh (lowerChar c) = true := by
  simp only [isAlphaCh, decide_eq_true_eq] at h
  rcases h with h | h
  · rw [lowerChar_eq_of_upper h]
    have h2 : (Char.ofNat (c.toNat + 32)).toNat = c.toNat + 32 :=
      toNat_ofNat_small _ (by omega)
    simp only [isAlphaCh, decide_eq_true_eq, h2]
    omega
  · rw [lowerChar_eq_of_not_upper (by omega)]
    simp only [isAlphaCh, decide_eq_true_eq]
    omega

theorem removeTagsF_nil (f : Nat) : removeTagsF f [] = [] := by
  cases f <;> rfl

theorem removeTagsF_fuel_irrel :
    ∀ (f1 f2 : Nat) (cs : List Char), cs.length ≤ f1 → cs.length ≤ f2 →
      removeTagsF f1 cs = removeTagsF f2 cs := by
  intro f1
  induction f1 with
  | zero =>
    intro f2 cs h1 _
    have : cs = [] := List.eq_nil_of_length_eq_zero (Nat.le_zero.mp h1)
    subst this
    rw [removeTagsF_nil, removeTagsF_nil]
  | succ k ih =>
    intro f2 cs h1 h2
    cases cs with
    | nil => rw [removeTagsF_nil, removeTagsF_nil]
    | cons c cs' =>
      cases f2 with
      | zero => simp at h2
      | succ m =>
        simp only [List.length_cons, Nat.succ_le_succ_iff] at h1 h2
        by_cases hc : c = '<'
        · subst hc
          rcases hdw : cs'.dropWhile (fun d => !(d == '>')) with _ | ⟨d, rest⟩
          · simp [removeTagsF, hdw]
          · have hlen : rest.length < cs'.length := by
              have hsub := (List.dropWhile_sublist
                (fun d => !(d == '>')) (l := cs')).length_le
              rw [hdw] at hsub
              simp only [List.length_cons] at hsub
              omega
            simp only [removeTagsF, if_pos rfl, hdw]
            exact ih m rest (by omega) (by omega)
        · simp only [removeTagsF, if_neg hc]
          rw [ih m cs' h1 h2]

theorem removeTags_cons_ne {c : Char} (h : ¬ c = '<') (cs : List Char) :
    removeTags (c :: cs) = c :: removeTags cs := by
  simp only [removeTags, List.length_cons, removeTagsF, if_neg h]

theorem removeTags_cons_lt_none {cs : List Char}
    (h : cs.dropWhile (fun d => !(d == '>')) = []) :
    removeTags ('<' :: cs) = '<' :: cs := by
  simp [removeTags, removeTagsF, h]

theorem removeTags_cons_lt_some {cs : List Char} {d : Char} {rest : List Char}
    (h : cs.dropWhile (fun d => !(d == '>')) = d :: rest) :
    removeTags ('<' :: cs) = removeTags rest := by
  have hlen : rest.length ≤ cs.length := by
    have hsub := (List.dropWhile_sublist (fun d => !(d == '>')) (l := cs)).length_le
    rw [h] at hsub
    simp only [List.length_cons] at hsub
    omega
  simp only [removeTags, List.length_cons, removeTagsF, if_pos rfl, h]
  exact removeTagsF_fuel_irrel _ _ _ hlen le_rfl

theorem removeTags_append_clean {a : List Char} (b : List Char)
    (h : ∀ c ∈ a, ¬ c = '<') :
    removeTags (a ++ b) = a ++ removeTags b := by
  induction a with
  | nil => simp
  | cons c a' ih =>
    have hc : ¬ c = '<' := h c (List.mem_cons_self _ _)
    rw [List.cons_append, removeTags_cons_ne hc,
      ih (fun x hx => h x (List.mem_cons_of_mem _ hx))]
    simp

theorem removeSus_append (a b : List Char) :
    removeSus (a ++ b) = removeSus a ++ removeSus b := by
  simp [removeSus, List.filter_append]

theorem stripAll_append_clean {a : List Char} (b : List Char)
    (hlt : ∀ c ∈ a, ¬ c = '<') (hsus : ∀ c ∈ a, susChar c = false) :
    stripAll (a ++ b) = a ++ stripAll b := by
  rw [stripAll, removeTags_append_clean b hlt, removeSus_append]
  have : removeSus a = a := List.filter_eq_self.mpr (by
    intro c hc
    simp [hsus c hc])
  rw [this, stripAll]

theorem head_dropWhile_false {α : Type} {p : α → Bool} :
    ∀ {l : List α} {c : α} {t : List α}, l.dropWhile p = c :: t → p c = false := by
  intro l
  induction l with
  | nil => intro c t h; simp at h
  | cons x l' ih =>
    intro c t h
    rw [List.dropWhile_cons] at h
    by_cases hx : p x = true
    · rw [if_pos hx] at h; exact ih h
    · rw [if_neg hx] at h
      cases h
      simpa using hx

theorem mem_map_lowerChar_fix {l : List Char} {c : Char} (h : c ∈ l.map lowerChar) :
    lowerChar c = c := by
  rcases List.mem_map.mp h with ⟨d, _, rfl⟩
  exact lowerChar_idem d

/-- Character-class facts used to re-parse a sanitized URL: scheme body
characters are never suspicious, never tag delimiters and never colons. -/
theorem schemeRest_clean {c : Char} (h : schemeRestChar c = true) :
    susChar c = false ∧ ¬ c = '<' ∧ (c == ':') = false := by
  refine ⟨?_, ?_, ?_⟩
  · by_contra hs
    rw [Bool.not_eq_false] at hs
    simp only [susChar, Bool.or_eq_true, beq_iff_eq] at hs
    rcases hs with ((((rfl | rfl) | rfl) | rfl) | rfl) | rfl <;> revert h <;> decide
  · intro hc; subst hc; revert h; decide
  · by_contra hs
    rw [Bool.not_eq_false, beq_iff_eq] at hs
    subst hs; revert h; decide

theorem schemeRestChar_lower {c : Char} (h : schemeRestChar c = true) :
    schemeRestChar (lowerChar c) = true := by
  simp only [schemeRestChar, Bool.or_eq_true, beq_iff_eq] at h
  rcases h with ((h | rfl) | rfl) | rfl
  · have h2 : isAlphaCh c = true ∨ isDigitCh c = true := by
      simpa [isAlnumCh] using h
    rcases h2 with ha | hd
    · have := lowerChar_alpha ha
      simp [schemeRestChar, isAlnumCh, this]
    · have hfix : lowerChar c = c := by
        have hd' := hd
        simp only [isDigitCh, decide_eq_true_eq] at hd'
        exact lowerChar_eq_of_not_upper (by omega)
      rw [hfix]
      simp [schemeRestChar, isAlnumCh, hd]
  · decide
  · decide
  · decide

theorem validScheme_map_lower {l : List Char} (h : validScheme l = true) :
    validScheme (l.map lowerChar) = true := by
  cases l with
  | nil => simp [validScheme] at h
  | cons c cs =>
    simp only [validScheme, Bool.and_eq_true, List.all_eq_true] at h
    simp only [List.map_cons, validScheme, Bool.and_eq_true, List.all_eq_true]
    refine ⟨lowerChar_alpha h.1, ?_⟩
    intro d hd
    rcases List.mem_map.mp hd with ⟨e, he, rfl⟩
    exact schemeRestChar_lower (h.2 e he)

theorem takeWhile_eq_cons {α : Type} {q : α → Bool} {l : List α} {c : α} {t : List α}
    (h : l.takeWhile q = c :: t) : ∃ l', l = c :: l' ∧ q c = true := by
  cases l with
  | nil => simp at h
  | cons x l' =>
    rw [List.takeWhile_cons] at h
    by_cases hx : q x = true
    · rw [if_pos hx] at h
      injection h with h1 _
      subst h1
      exact ⟨l', rfl, hx⟩
    · rw [if_neg hx] at h; simp at h

/-- Structural facts about any successfully parsed URL: the stored
scheme is valid and lowercase, the host is nonempty, free of forbidden
characters and lowercase, and the path starts with a slash. -/
theorem parse_wf {cs : List Char} {u : UrlObj} (h : parseUrlChars cs = some u) :
    validScheme u.scheme = true ∧ (∀ c ∈ u.scheme, lowerChar c = c) ∧
    u.host ≠ [] ∧ (∀ c ∈ u.host, forbiddenHostChar c = false) ∧
    (∀ c ∈ u.host, lowerChar c = c) ∧ ∃ t, u.path = '/' :: t := by
  simp only [parseUrlChars] at h
  split_ifs at h with h1 h2 hp
  · rw [Option.some_inj] at h
    subst h
    obtain ⟨-, hsch⟩ := h1
    obtain ⟨hne, hall⟩ := h2
    refine ⟨validScheme_map_lower hsch, fun c hc => mem_map_lowerChar_fix hc, hne, ?_,
      fun c hc => mem_map_lowerChar_fix hc, ⟨[], rfl⟩⟩
    intro c hc
    have := List.all_eq_true.mp hall c hc
    simpa using this
  · rw [Option.some_inj] at h
    subst h
    obtain ⟨-, hsch⟩ := h1
    obtain ⟨hne, hall⟩ := h2
    refine ⟨validScheme_map_lower hsch, fun c hc => mem_map_lowerChar_fix hc, hne, ?_,
      fun c hc => mem_map_lowerChar_fix hc, ?_⟩
    · intro c hc
      have := List.all_eq_true.mp hall c hc
      simpa using this
    · obtain ⟨c, p', hp'⟩ := List.exists_cons_of_ne_nil hp
      obtain ⟨l1, hl1, hq⟩ := takeWhile_eq_cons hp'
      obtain ⟨l2, hl2, hh⟩ := takeWhile_eq_cons hl1
      have hstop := head_dropWhile_false hl2
      have hc : c = '/' := by
        simp at hq hh hstop
        tauto
      subst hc
      exact ⟨p', hp'⟩

theorem stripAll_cons_clean {c : Char} (h1 : ¬ c = '<') (h2 : susChar c = false)
    (cs : List Char) :
    stripAll (c :: cs) = c :: stripAll cs := by
  have := stripAll_append_clean (a := [c]) cs (by simpa using h1) (by simpa using h2)
  simpa using this

theorem mapGet_none_iff {m : List (String × Tab)} {k : String} :
    mapGet m k = none ↔ k ∉ m.map Prod.fst := by
  induction m with
  | nil => simp [mapGet]
  | cons p m ih =>
    by_cases hp : p.1 = k
    · simp [mapGet, hp]
    · simp only [mapGet, if_neg hp, List.map_cons, List.mem_cons, ih]
      constructor
      · intro h hk
        rcases hk with hk | hk
        · exact hp hk.symm
        · exact h hk
      · intro h hk
        exact h (Or.inr hk)

theorem mapGet_some_mem_keys {m : List (String × Tab)} {k : String} {v : Tab}
    (h : mapGet m k = some v) : k ∈ m.map Prod.fst := by
  by_contra hk
  rw [← mapGet_none_iff] at hk
  rw [h] at hk
  simp at hk

theorem mapGet_some_mem_ids {m : List (String × Tab)} {k : String} {v : Tab}
    (h : mapGet m k = some v) : v.id ∈ m.map (fun p => p.2.id) := by
  induction m with
  | nil => simp [mapGet] at h
  | cons p m ih =>
    by_cases hp : p.1 = k
    · rw [mapGet, if_pos hp, Option.some_inj] at h
      subst h
      simp
    · rw [mapGet, if_neg hp] at h
      simp [ih h]

theorem mapSet_of_not_mem {m : List (String × Tab)} {k : String} (v : Tab)
    (h : k ∉ m.map Prod.fst) : mapSet m k v = m ++ [(k, v)] := by
  induction m with
  | nil => rfl
  | cons p m ih =>
    simp only [List.map_cons, List.mem_cons] at h
    push_neg at h
    rw [mapSet, if_neg (fun he => h.1 he.symm), ih h.2]
    rfl

theorem mapSet_keys_of_mem {m : List (String × Tab)} {k : String} (v : Tab)
    (h : k ∈ m.map Prod.fst) : (mapSet m k v).map Prod.fst = m.map Prod.fst := by
  induction m with
  | nil => simp at h
  | cons p m ih =>
    by_cases hp : p.1 = k
    · rw [mapSet, if_pos hp]
      simp [hp]
    · rw [mapSet, if_neg hp]
      simp only [List.map_cons, List.mem_cons] at h
      rcases h with h | h
      · exact absurd h.symm hp
      · simp [ih h]

theorem mapSet_length_of_mem {m : List (String × Tab)} {k : String} (v : Tab)
    (h : k ∈ m.map Prod.fst) : (mapSet m k v).length = m.length := by
  have := mapSet_keys_of_mem (m := m) (k := k) v h
  have h1 := congrArg List.length this
  simpa using h1

theorem mapSet_ids_count {m : List (String × Tab)} {k : String} {v kept : Tab}
    (h : mapGet m k = some kept) (x : Nat) :
    List.count x ((mapSet m k v).map (fun p => p.2.id)) +
        (if kept.id = x then 1 else 0)
      = List.count x (m.map (fun p => p.2.id)) + (if v.id = x then 1 else 0) := by
  induction m with
  | nil => simp [mapGet] at h
  | cons p m ih =>
    by_cases hp : p.1 = k
    · rw [mapGet, if_pos hp, Option.some_inj] at h
      rw [mapSet, if_pos hp]
      simp only [List.map_cons, List.count_cons, beq_iff_eq]
      rw [← h]
      omega
    · rw [mapGet, if_neg hp] at h
      rw [mapSet, if_neg hp]
      simp only [List.map_cons, List.count_cons, beq_iff_eq]
      have := ih h
      omega

/-- Main loop invariant of the `closeDuplicates` scan: with globally
distinct tab ids, the active id never enters the removal set, and every
iteration grows the map or the set by exactly one entry. -/
theorem dupFold_main (a : Nat) :
    ∀ (ts : List Tab) (m : List (String × Tab)) (cl : List Nat),
      (∀ x : Nat, List.count x (m.map (fun p => p.2.id)) + List.count x cl +
          List.count x (ts.map Tab.id) ≤ 1) →
      List.count a cl = 0 →
      List.count a (ts.foldl (dupStep a) ⟨m, cl⟩).toClose = 0 ∧
      (ts.foldl (dupStep a) ⟨m, cl⟩).seen.length +
          (ts.foldl (dupStep a) ⟨m, cl⟩).toClose.length = m.length + cl.length + ts.length := by
  intro ts
  induction ts with
  | nil =>
    intro m cl _ hacl
    exact ⟨by simpa using hacl, by simp⟩
  | cons t ts ih =>
    intro m cl hinv hacl
    rw [List.foldl_cons]
    rcases hget : mapGet m (lowerStr t.url) with _ | kept
    · -- new URL: append to the map
      have hnk : lowerStr t.url ∉ m.map Prod.fst := mapGet_none_iff.mp hget
      have hstep : dupStep a ⟨m, cl⟩ t = ⟨m ++ [(lowerStr t.url, t)], cl⟩ := by
        simp [dupStep, hget, mapSet_of_not_mem _ hnk]
      rw [hstep]
      have hinv' : ∀ x : Nat,
          List.count x ((m ++ [(lowerStr t.url, t)]).map (fun p => p.2.id)) +
            List.count x cl + List.count x (ts.map Tab.id) ≤ 1 := by
        intro x
        have h1 := hinv x
        simp only [List.map_append, List.count_append, List.map_cons, List.count_cons,
          List.map_nil, List.count_nil, beq_iff_eq] at h1 ⊢
        omega
      obtain ⟨hc, hl⟩ := ih (m ++ [(lowerStr t.url, t)]) cl hinv' hacl
      refine ⟨hc, ?_⟩
      rw [hl]
      simp only [List.length_append, List.length_cons, List.length_nil]
      omega
    · by_cases hid : t.id = a
      · -- the active tab is a duplicate: close the kept tab instead
        subst hid
        have hkeptmem := mapGet_some_mem_ids hget
        have hkpos : 0 < List.count kept.id (m.map (fun p => p.2.id)) :=
          List.count_pos_iff.mpr hkeptmem
        have hka : List.count t.id (m.map (fun p => p.2.id)) = 0 := by
          have h1 := hinv t.id
          simp [List.map_cons, List.count_cons, beq_iff_eq] at h1
          omega
        have hkept_ne : kept.id ≠ t.id := by
          intro he
          rw [he] at hkpos
          omega
        have hkcl : List.count kept.id cl = 0 := by
          have h1 := hinv kept.id
          simp only [List.map_cons, List.count_cons, beq_iff_eq] at h1
          omega
        have hknin : kept.id ∉ cl := List.count_eq_zero.mp hkcl
        have hstep : dupStep t.id ⟨m, cl⟩ t =
            ⟨mapSet m (lowerStr t.url) t, cl ++ [kept.id]⟩ := by
          simp [dupStep, hget, setAdd, hknin]
        rw [hstep]
        have hinv' : ∀ x : Nat,
            List.count x ((mapSet m (lowerStr t.url) t).map (fun p => p.2.id)) +
              List.count x (cl ++ [kept.id]) + List.count x (ts.map Tab.id) ≤ 1 := by
          intro x
          have h1 := hinv x
          have h2 := mapSet_ids_count (v := t) hget x
          simp only [List.map_cons, List.count_cons, List.count_append,
            List.count_nil, beq_iff_eq] at h1 ⊢
          omega
        have hacl' : List.count t.id (cl ++ [kept.id]) = 0 := by
          simp only [List.count_append, List.count_cons, List.count_nil, beq_iff_eq]
          rw [if_neg hkept_ne]
          omega
        obtain ⟨hc, hl⟩ := ih _ _ hinv' hacl'
        refine ⟨hc, ?_⟩
        rw [hl, mapSet_length_of_mem _ (mapGet_some_mem_keys hget)]
        simp only [List.length_append, List.length_cons, List.length_nil]
        omega
      · -- an ordinary duplicate: close the current tab
        have htcl : List.count t.id cl = 0 := by
          have h1 := hinv t.id
          simp [List.map_cons, List.count_cons, beq_iff_eq] at h1
          omega
        have htnin : t.id ∉ cl := List.count_eq_zero.mp htcl
        have hstep : dupStep a ⟨m, cl⟩ t = ⟨m, cl ++ [t.id]⟩ := by
          simp [dupStep, hget, hid, setAdd, htnin]
        rw [hstep]
        have hinv' : ∀ x : Nat,
            List.count x (m.map (fun p => p.2.id)) + List.count x (cl ++ [t.id]) +
              List.count x (ts.map Tab.id) ≤ 1 := by
          intro x
          have h1 := hinv x
          simp only [List.map_cons, List.count_cons, List.count_append,
            List.count_nil, beq_iff_eq] at h1 ⊢
          omega
        have hacl' : List.count a (cl ++ [t.id]) = 0 := by
          simp only [List.count_append, List.count_cons, List.count_nil, beq_iff_eq]
          rw [if_neg hid]
          omega
        obtain ⟨hc, hl⟩ := ih _ _ hinv' hacl'
        refine ⟨hc, ?_⟩
        rw [hl]
        simp only [List.length_append, List.length_cons, List.length_nil]
        omega

/-- The key list of the `uniqueURLs` map tracks first-occurrence
insertion of the lowercased URLs, independently of the active id. -/
theorem dupFold_keys (a : Nat) :
    ∀ (ts : List Tab) (m : List (String × Tab)) (cl : List Nat),
      ((ts.foldl (dupStep a) ⟨m, cl⟩).seen).map Prod.fst =
        (ts.map (fun t => lowerStr t.url)).foldl insertNew (m.map Prod.fst) := by
  intro ts
  induction ts with
  | nil => intro m cl; rfl
  | cons t ts ih =>
    intro m cl
    rw [List.foldl_cons, List.map_cons, List.foldl_cons]
    rcases hget : mapGet m (lowerStr t.url) with _ | kept
    · have hnk : lowerStr t.url ∉ m.map Prod.fst := mapGet_none_iff.mp hget
      have hstep : dupStep a ⟨m, cl⟩ t = ⟨m ++ [(lowerStr t.url, t)], cl⟩ := by
        simp [dupStep, hget, mapSet_of_not_mem _ hnk]
      rw [hstep, ih]
      have : insertNew (m.map Prod.fst) (lowerStr t.url) = m.map Prod.fst ++ [lowerStr t.url] := by
        simp [insertNew, hnk]
      rw [this]
      simp
    · have hk : lowerStr t.url ∈ m.map Prod.fst := mapGet_some_mem_keys hget
      have hins : insertNew (m.map Prod.fst) (lowerStr t.url) = m.map Prod.fst := by
        simp [insertNew, hk]
      rw [hins]
      by_cases hid : t.id = a
      · have hstep : dupStep a ⟨m, cl⟩ t =
            ⟨mapSet m (lowerStr t.url) t, setAdd cl kept.id⟩ := by
          simp [dupStep, hget, hid]
        rw [hstep, ih]
        rw [mapSet_keys_of_mem _ hk]
      · have hstep : dupStep a ⟨m, cl⟩ t = ⟨m, setAdd cl t.id⟩ := by
          simp [dupStep, hget, hid]
        rw [hstep, ih]

/-- C1 counterexample: a bundle whose `version` is 2 — a value the
writer never emits and the reader does not recognize — is accepted by
both decoders rather than rejected, refuting the claim that every
unrecognized version is rejected. -/
theorem claim_C1_counterexample :
    decodeWindows ⟨some 2, some []⟩ = Except.ok [] ∧
    decodeSessions ⟨some 2, some []⟩ = Except.ok [] :=
  ⟨rfl, rfl⟩

/-- C1 (amended): decoding an import bundle fails exactly when the
payload field (`windows` or `sessions`) is absent or the `version` field
is absent or zero (JavaScript-falsy); every other version value is
accepted, so the decoder does not restrict versions to the writer's
value 1.  On a failed decode the stored session collection is left
unchanged. -/
theorem claim_C1 (f : WindowsFile) (g : SessionsFile) (stored : List Session) :
    ((decodeWindows f).isOk = (jsTruthy f.version && f.windows.isSome)) ∧
    ((decodeSessions g).isOk = (jsTruthy g.version && g.sessions.isSome)) ∧
    ((decodeSessions g).isOk = false → importSessionsRun g stored = stored) := by
  refine ⟨?_, ?_, ?_⟩
  · rcases f with ⟨v, w⟩
    rcases w with _ | w
    · simp [decodeWindows, Except.isOk, Except.toBool]
    · by_cases hv : jsTruthy v = true <;>
        simp [decodeWindows, hv, Except.isOk, Except.toBool]
  · rcases g with ⟨v, s⟩
    rcases s with _ | s
    · simp [decodeSessions, Except.isOk, Except.toBool]
    · by_cases hv : jsTruthy v = true <;>
        simp [decodeSessions, hv, Except.isOk, Except.toBool]
  · intro hfail
    unfold importSessionsRun
    rcases hd : decodeSessions g with e | ok
    · rfl
    · rw [hd] at hfail
      simp [Except.isOk, Except.toBool] at hfail

theorem claim_C1_witness :
    (decodeSessions ⟨none, some [⟨1, 1, ["u"], none⟩]⟩).isOk = false ∧
    importSessionsRun ⟨none, some [⟨1, 1, ["u"], none⟩]⟩ [⟨5, 1, ["v"], none⟩]
      = [⟨5, 1, ["v"], none⟩] :=
  ⟨rfl, (claim_C1 ⟨none, none⟩ ⟨none, some [⟨1, 1, ["u"], none⟩]⟩
    [⟨5, 1, ["v"], none⟩]).2.2 rfl⟩

/-- C8: during replay the persisted window state is applied only when
its case-insensitive form is one of the three recognized literals; for
any other state string no state command is issued for that window, and
the window itself and all other windows are still replayed in place. -/
theorem claim_C8 (w : ImpWindow) (l1 l2 : List ImpWindow)
    (h : lowerStr w.state ∉ (["minimized", "maximized", "normal"] : List String)) :
    (∀ s, HostCmd.setWindowState s ∉ windowCmds w) ∧
    replayWindows (l1 ++ w :: l2) = replayWindows l1 ++ windowCmds w ++ replayWindows l2 := by
  constructor
  · intro s hs
    simp only [windowCmds, if_neg h, List.nil_append] at hs
    rcases List.mem_cons.mp hs with h1 | h1
    · exact HostCmd.noConfusion h1
    · rcases List.mem_append.mp h1 with h2 | h2
      · rcases List.mem_map.mp h2 with ⟨p, -, hpe⟩
        exact HostCmd.noConfusion hpe
      · rcases hidx : w.tabs.findIdx? ImpTab.active with _ | i
        · rw [hidx] at h2
          simp at h2
        · rw [hidx] at h2
          rw [List.mem_singleton] at h2
          exact HostCmd.noConfusion h2
  · simp [replayWindows, List.map_append, List.map_cons, List.flatten_append,
      List.flatten_cons, List.append_assoc]

theorem claim_C8_witness :
    lowerStr (ImpWindow.state ⟨true, "sideways", []⟩) ∉
        (["minimized", "maximized", "normal"] : List String) ∧
    ((∀ s, HostCmd.setWindowState s ∉ windowCmds ⟨true, "sideways", []⟩) ∧
      replayWindows ([] ++ (⟨true, "sideways", []⟩ : ImpWindow) :: [⟨false, "normal", []⟩])
        = replayWindows [] ++ windowCmds ⟨true, "sideways", []⟩ ++
            replayWindows [⟨false, "normal", []⟩]) :=
  ⟨by decide, claim_C8 ⟨true, "sideways", []⟩ [] [⟨false, "normal", []⟩] (by decide)⟩

/-- C4: the merge skips exactly the incoming sessions whose identity key
(timestamp, first URL) already occurs among the existing sessions,
prepends the surviving incoming sessions in their original relative
order ahead of the unchanged existing collection, and always satisfies
addedCount + skippedCount = length of the incoming collection; the
spec's concrete example merges to length 2 with one added and one
skipped. -/
theorem claim_C4 (incoming existing : List Session) :
    (mergeImport incoming existing).addedCount + (mergeImport incoming existing).skippedCount
        = incoming.length ∧
    (mergeImport incoming existing).merged =
      incoming.filter (fun s => decide (sessionKey s ∉ existing.map sessionKey)) ++ existing ∧
    ((mergeImport [⟨100, 1, ["u1"], none⟩, ⟨200, 1, ["u2"], none⟩]
          [⟨100, 1, ["u1"], none⟩]).merged.length = 2 ∧
      (mergeImport [⟨100, 1, ["u1"], none⟩, ⟨200, 1, ["u2"], none⟩]
          [⟨100, 1, ["u1"], none⟩]).addedCount = 1 ∧
      (mergeImport [⟨100, 1, ["u1"], none⟩, ⟨200, 1, ["u2"], none⟩]
          [⟨100, 1, ["u1"], none⟩]).skippedCount = 1) := by
  refine ⟨?_, ?_, by decide⟩
  · simp only [mergeImport]
    have := List.length_filter_le
      (fun s => !(existing.map sessionKey).contains (sessionKey s)) incoming
    omega
  · simp only [mergeImport]
    congr 1
    apply List.filter_congr
    intro s _
    by_cases hm : sessionKey s ∈ existing.map sessionKey <;> simp [hm]

/-- C9 (implicit): the merge deduplicates incoming sessions only
against the existing collection, not against each other — for any
identity key absent from the existing collection, every incoming
session carrying it survives into the merge (the per-key multiplicity
is preserved); in particular importing two identical fresh sessions
adds both copies. -/
theorem claim_C9 (existing incoming : List Session) (k : String)
    (h : k ∉ existing.map sessionKey) :
    (mergeImport incoming existing).merged.countP (fun s => decide (sessionKey s = k))
      = incoming.countP (fun s => decide (sessionKey s = k)) ∧
    (mergeImport [⟨100, 1, ["u"], none⟩, ⟨100, 1, ["u"], none⟩] []).merged
      = [⟨100, 1, ["u"], none⟩, ⟨100, 1, ["u"], none⟩] := by
  constructor
  · simp only [mergeImport]
    rw [List.countP_append]
    have hex : existing.countP (fun s => decide (sessionKey s = k)) = 0 := by
      rw [List.countP_eq_zero]
      intro s hs hds
      rw [decide_eq_true_eq] at hds
      exact h (hds ▸ List.mem_map_of_mem sessionKey hs)
    rw [hex, Nat.add_zero, List.countP_filter]
    apply List.countP_congr
    intro s _
    by_cases hk : sessionKey s = k
    · rw [hk]
      have hcont : ((existing.map sessionKey).contains k) = false := by
        by_contra hc
        rw [Bool.not_eq_false] at hc
        exact h (by simpa using hc)
      simp [hcont]
      intro x hx hxk
      exact h (hxk ▸ List.mem_map_of_mem sessionKey hx)
    · simp [hk]
  · decide

theorem claim_C9_witness :
    "100_u" ∉ ([] : List Session).map sessionKey ∧
    (mergeImport [⟨100, 1, ["u"], none⟩, ⟨100, 1, ["u"], none⟩] []).merged.countP
        (fun s => decide (sessionKey s = "100_u"))
      = ([⟨100, 1, ["u"], none⟩, ⟨100, 1, ["u"], none⟩] : List Session).countP
        (fun s => decide (sessionKey s = "100_u")) :=
  ⟨by decide, (claim_C9 [] [⟨100, 1, ["u"], none⟩, ⟨100, 1, ["u"], none⟩]
    "100_u" (by decide)).1⟩

/-- C3: for every tab list with pairwise distinct ids and every active
id occurring in it, the removal set computed by the duplicate scan never
contains the active id; and on the spec's concrete example — two tabs
with the same URL, the second one active — the scan removes exactly the
first tab. -/
theorem claim_C3 (tabs : List Tab) (a : Nat)
    (hnodup : (tabs.map Tab.id).Nodup) (hmem : a ∈ tabs.map Tab.id) :
    a ∉ findDuplicates tabs a ∧
    findDuplicates [⟨1, "http://x.com/a"⟩, ⟨2, "http://x.com/a"⟩] 2 = [1] := by
  constructor
  · have hinv : ∀ x : Nat,
        List.count x (([] : List (String × Tab)).map (fun p => p.2.id)) +
          List.count x ([] : List Nat) + List.count x (tabs.map Tab.id) ≤ 1 := by
      intro x
      have := List.nodup_iff_count_le_one.mp hnodup x
      simpa using this
    have h := (dupFold_main a tabs [] [] hinv (by simp)).1
    exact List.count_eq_zero.mp h
  · decide

theorem claim_C3_witness :
    (([⟨1, "http://x.com/a"⟩, ⟨2, "http://x.com/a"⟩] : List Tab).map Tab.id).Nodup ∧
    2 ∈ ([⟨1, "http://x.com/a"⟩, ⟨2, "http://x.com/a"⟩] : List Tab).map Tab.id ∧
    2 ∉ findDuplicates [⟨1, "http://x.com/a"⟩, ⟨2, "http://x.com/a"⟩] 2 :=
  ⟨by decide, by decide,
    (claim_C3 [⟨1, "http://x.com/a"⟩, ⟨2, "http://x.com/a"⟩] 2 (by decide) (by decide)).1⟩

/-- C10 (implicit): with pairwise distinct tab ids, the size of the
removal set equals the number of tabs minus the number of distinct
case-insensitive URLs, independently of which occurring id is active. -/
theorem claim_C10 (tabs : List Tab) (a b : Nat)
    (hnodup : (tabs.map Tab.id).Nodup) (ha : a ∈ tabs.map Tab.id)
    (hb : b ∈ tabs.map Tab.id) :
    (findDuplicates tabs a).length =
      tabs.length - distinctCount (tabs.map (fun t => lowerStr t.url)) ∧
    (findDuplicates tabs a).length = (findDuplicates tabs b).length := by
  have key : ∀ c : Nat,
      (findDuplicates tabs c).length =
        tabs.length - distinctCount (tabs.map (fun t => lowerStr t.url)) := by
    intro c
    have hinv : ∀ x : Nat,
        List.count x (([] : List (String × Tab)).map (fun p => p.2.id)) +
          List.count x ([] : List Nat) + List.count x (tabs.map Tab.id) ≤ 1 := by
      intro x
      have := List.nodup_iff_count_le_one.mp hnodup x
      simpa using this
    have hmain := (dupFold_main c tabs [] [] hinv (by simp)).2
    have hkeys := dupFold_keys c tabs [] []
    have hseen : (tabs.foldl (dupStep c) ⟨[], []⟩).seen.length =
        distinctCount (tabs.map (fun t => lowerStr t.url)) := by
      have h1 := congrArg List.length hkeys
      simpa [distinctCount] using h1
    show (tabs.foldl (dupStep c) ⟨[], []⟩).toClose.length = _
    simp only [List.length_nil] at hmain
    omega
  exact ⟨key a, (key a).trans (key b).symm⟩

theorem claim_C10_witness :
    (([⟨1, "http://x.com/a"⟩, ⟨2, "http://X.com/A"⟩, ⟨3, "http://y.com/"⟩] : List Tab).map
        Tab.id).Nodup ∧
    1 ∈ ([⟨1, "http://x.com/a"⟩, ⟨2, "http://X.com/A"⟩, ⟨3, "http://y.com/"⟩] : List Tab).map
        Tab.id ∧
    2 ∈ ([⟨1, "http://x.com/a"⟩, ⟨2, "http://X.com/A"⟩, ⟨3, "http://y.com/"⟩] : List Tab).map
        Tab.id ∧
    ((findDuplicates [⟨1, "http://x.com/a"⟩, ⟨2, "http://X.com/A"⟩, ⟨3, "http://y.com/"⟩] 1).length
        = 3 - distinctCount (([⟨1, "http://x.com/a"⟩, ⟨2, "http://X.com/A"⟩,
            ⟨3, "http://y.com/"⟩] : List Tab).map (fun t => lowerStr t.url)) ∧
      (findDuplicates [⟨1, "http://x.com/a"⟩, ⟨2, "http://X.com/A"⟩, ⟨3, "http://y.com/"⟩] 1).length
        = (findDuplicates [⟨1, "http://x.com/a"⟩, ⟨2, "http://X.com/A"⟩,
            ⟨3, "http://y.com/"⟩] 2).length) :=
  ⟨by decide, by decide, by decide,
    claim_C10 [⟨1, "http://x.com/a"⟩, ⟨2, "http://X.com/A"⟩, ⟨3, "http://y.com/"⟩] 1 2
      (by decide) (by decide) (by decide)⟩

theorem buckets_perm :
    ∀ (ks : List (String × String)) (tabs : List Tab), ks.Nodup →
      (∀ t ∈ tabs, tabKey t ∈ ks) →
      ((ks.map (fun k => tabs.filter (fun t => decide (tabKey t = k)))).flatten).Perm tabs := by
  intro ks
  induction ks with
  | nil =>
    intro tabs _ hcov
    have hnil : tabs = [] := List.eq_nil_iff_forall_not_mem.mpr
      (fun t ht => absurd (hcov t ht) (List.not_mem_nil _))
    subst hnil
    simp
  | cons k ks ih =>
    intro tabs hnd hcov
    obtain ⟨hknotin, hndtail⟩ := List.nodup_cons.mp hnd
    simp only [List.map_cons, List.flatten_cons]
    have hmapeq : ks.map (fun q => tabs.filter (fun t => decide (tabKey t = q))) =
        ks.map (fun q => (tabs.filter (fun t => !decide (tabKey t = k))).filter
          (fun t => decide (tabKey t = q))) := by
      apply List.map_congr_left
      intro q hq
      rw [List.filter_filter]
      apply List.filter_congr
      intro t _
      by_cases he : tabKey t = q
      · have hq_ne_k : ¬ q = k := fun hqk => hknotin (hqk ▸ hq)
        simp [he, hq_ne_k]
      · simp [he]
    rw [hmapeq]
    have hcov' : ∀ t ∈ tabs.filter (fun t => !decide (tabKey t = k)), tabKey t ∈ ks := by
      intro t ht
      obtain ⟨htm, htf⟩ := List.mem_filter.mp ht
      rcases List.mem_cons.mp (hcov t htm) with h1 | h1
      · exfalso
        simp [h1] at htf
      · exact h1
    have hperm2 := ih (tabs.filter (fun t => !decide (tabKey t = k))) hndtail hcov'
    exact ((hperm2.append_left _).trans (List.filter_append_perm _ tabs))

theorem buckets_filter_nil :
    ∀ (ks : List (String × String)) (tabs : List Tab) (k : String × String), k ∉ ks →
      ((ks.map (fun q => tabs.filter (fun t => decide (tabKey t = q)))).flatten).filter
          (fun t => decide (tabKey t = k)) = [] := by
  intro ks
  induction ks with
  | nil => intro tabs k _; rfl
  | cons q ks ih =>
    intro tabs k hk
    simp only [List.map_cons, List.flatten_cons, List.filter_append]
    have hkq : ¬ k = q := fun he => hk (by rw [he]; exact List.mem_cons_self _ _)
    have h1 : (tabs.filter (fun t => decide (tabKey t = q))).filter
        (fun t => decide (tabKey t = k)) = [] := by
      rw [List.filter_eq_nil_iff]
      intro t ht hdk
      have hdq := (List.mem_filter.mp ht).2
      rw [decide_eq_true_eq] at hdk hdq
      exact hkq (by rw [← hdk, hdq])
    rw [h1, ih tabs k (fun hm => hk (List.mem_cons_of_mem _ hm)), List.nil_append]

theorem buckets_filter_eq :
    ∀ (ks : List (String × String)) (tabs : List Tab) (k : String × String),
      ks.Nodup → k ∈ ks →
      ((ks.map (fun q => tabs.filter (fun t => decide (tabKey t = q)))).flatten).filter
          (fun t => decide (tabKey t = k))
        = tabs.filter (fun t => decide (tabKey t = k)) := by
  intro ks
  induction ks with
  | nil => intro tabs k _ hk; exact absurd hk (List.not_mem_nil _)
  | cons q ks ih =>
    intro tabs k hnd hk
    obtain ⟨hqnotin, hndtail⟩ := List.nodup_cons.mp hnd
    simp only [List.map_cons, List.flatten_cons, List.filter_append]
    by_cases hkq : k = q
    · subst hkq
      have h1 : (tabs.filter (fun t => decide (tabKey t = k))).filter
          (fun t => decide (tabKey t = k)) = tabs.filter (fun t => decide (tabKey t = k)) := by
        rw [List.filter_filter]
        apply List.filter_congr
        intro t _
        by_cases he : tabKey t = k <;> simp [he]
      rw [h1, buckets_filter_nil ks tabs k hqnotin, List.append_nil]
    · have h1 : (tabs.filter (fun t => decide (tabKey t = q))).filter
          (fun t => decide (tabKey t = k)) = [] := by
        rw [List.filter_eq_nil_iff]
        intro t ht hdk
        have hdq := (List.mem_filter.mp ht).2
        rw [decide_eq_true_eq] at hdk hdq
        exact hkq (by rw [← hdk, hdq])
      have hkks : k ∈ ks := by
        rcases List.mem_cons.mp hk with h2 | h2
        · exact absurd h2 hkq
        · exact h2
      rw [h1, ih tabs k hndtail hkks, List.nil_append]

theorem assocGet_none_iff {α : Type} {k : String} :
    ∀ {l : List (String × α)}, assocGet l k = none ↔ k ∉ l.map Prod.fst := by
  intro l
  induction l with
  | nil => simp [assocGet]
  | cons p rest ih =>
    obtain ⟨pk, pv⟩ := p
    by_cases h : pk = k
    · subst h
      simp [assocGet]
    · rw [List.map_cons, List.mem_cons,
        show assocGet ((pk, pv) :: rest) k = assocGet rest k from by simp [assocGet, h], ih]
      constructor
      · intro hk hc
        rcases hc with hc | hc
        · exact h hc.symm
        · exact hk hc
      · intro hk hc
        exact hk (Or.inr hc)

theorem assocGet_set_self {α : Type} {k : String} {v : α} :
    ∀ l : List (String × α), assocGet (assocSet l k v) k = some v := by
  intro l
  induction l with
  | nil => simp [assocSet, assocGet]
  | cons p rest ih =>
    obtain ⟨pk, pv⟩ := p
    by_cases h : pk = k
    · simp [assocSet, assocGet, h]
    · simp [assocSet, assocGet, h, ih]

theorem assocGet_set_ne {α : Type} {k q : String} (h : ¬ q = k) :
    ∀ (l : List (String × α)) (v : α), assocGet (assocSet l k v) q = assocGet l q := by
  have hk : ¬ k = q := fun hh => h hh.symm
  intro l
  induction l with
  | nil =>
    intro v
    simp [assocSet, assocGet, hk]
  | cons p rest ih =>
    intro v
    obtain ⟨pk, pv⟩ := p
    by_cases hp : pk = k
    · subst hp
      simp [assocSet, assocGet, hk]
    · simp only [assocSet, if_neg hp, assocGet]
      by_cases hq : pk = q
      · rw [if_pos hq, if_pos hq]
      · rw [if_neg hq, if_neg hq, ih v]

theorem assocSet_not_mem {α : Type} {k : String} :
    ∀ {l : List (String × α)}, assocGet l k = none → ∀ v : α,
      assocSet l k v = l ++ [(k, v)] := by
  intro l
  induction l with
  | nil => intro _ v; rfl
  | cons p rest ih =>
    intro h v
    obtain ⟨pk, pv⟩ := p
    by_cases hp : pk = k
    · subst hp
      simp [assocGet] at h
    · have h2 : assocGet rest k = none := by simpa [assocGet, hp] using h
      simp only [assocSet, if_neg hp, List.cons_append]
      rw [ih h2 v]

theorem assocSet_keys_mem {α : Type} {k : String} :
    ∀ {l : List (String × α)}, ¬ assocGet l k = none → ∀ v : α,
      (assocSet l k v).map Prod.fst = l.map Prod.fst := by
  intro l
  induction l with
  | nil => intro h; exact absurd rfl h
  | cons p rest ih =>
    intro h v
    obtain ⟨pk, pv⟩ := p
    by_cases hp : pk = k
    · subst hp
      simp [assocSet]
    · have h2 : ¬ assocGet rest k = none := by
        intro hc
        exact h (by simpa [assocGet, hp] using hc)
      simp only [assocSet, if_neg hp, List.map_cons]
      rw [ih h2 v]

theorem assocGet_append_single {α : Type} {k q : String} {v : α} :
    ∀ l : List (String × α), assocGet (l ++ [(k, v)]) q =
      match assocGet l q with
      | some w => some w
      | none => if k = q then some v else none := by
  intro l
  induction l with
  | nil => rfl
  | cons p rest ih =>
    obtain ⟨pk, pv⟩ := p
    by_cases hp : pk = q
    · simp [assocGet, hp]
    · simp only [List.cons_append, assocGet, if_neg hp]
      exact ih

theorem assocGet_append_none {α : Type} {k q : String} {v : α} {l : List (String × α)}
    (h : assocGet l q = none) :
    assocGet (l ++ [(k, v)]) q = if k = q then some v else none := by
  rw [assocGet_append_single, h]

theorem assocGet_append_some {α : Type} {k q : String} {v : α} {l : List (String × α)}
    {w : α} (h : assocGet l q = some w) :
    assocGet (l ++ [(k, v)]) q = some w := by
  rw [assocGet_append_single, h]

theorem key_mem_fst {ts : List Tab} {k : String × String} (h : k ∈ ts.map tabKey) :
    k.1 ∈ ts.map (fun t => (tabKey t).1) := by
  rcases List.mem_map.mp h with ⟨x, hx, rfl⟩
  exact List.mem_map.mpr ⟨x, hx, rfl⟩

theorem filter_key_nil {ts : List Tab} {k : String × String}
    (h : k ∉ ts.map tabKey) :
    ts.filter (fun t => decide (tabKey t = k)) = [] := by
  rw [List.filter_eq_nil_iff]
  intro t ht hd
  rw [decide_eq_true_eq] at hd
  exact h (hd ▸ List.mem_map_of_mem tabKey ht)

theorem filter_key_append_self {ts : List Tab} (t : Tab) {k : String × String}
    (h : tabKey t = k) :
    (ts ++ [t]).filter (fun x => decide (tabKey x = k)) =
      ts.filter (fun x => decide (tabKey x = k)) ++ [t] := by
  rw [List.filter_append]
  congr 1
  simp [List.filter, h]

theorem filter_key_append_ne {ts : List Tab} (t : Tab) {k : String × String}
    (h : ¬ tabKey t = k) :
    (ts ++ [t]).filter (fun x => decide (tabKey x = k)) =
      ts.filter (fun x => decide (tabKey x = k)) := by
  rw [List.filter_append]
  have h1 : List.filter (fun x => decide (tabKey x = k)) [t] = [] := by
    simp [List.filter, h]
  rw [h1, List.append_nil]

theorem mem_map_key_append {ts : List Tab} {t : Tab} {k : String × String} :
    k ∈ (ts ++ [t]).map tabKey ↔ k ∈ ts.map tabKey ∨ k = tabKey t := by
  rw [List.map_append, List.mem_append]
  simp

theorem mem_map_fst_append {ts : List Tab} {t : Tab} {bd : String} :
    bd ∈ (ts ++ [t]).map (fun x => (tabKey x).1) ↔
      bd ∈ ts.map (fun x => (tabKey x).1) ∨ bd = (tabKey t).1 := by
  rw [List.map_append, List.mem_append]
  simp

/-- Extending the processed prefix by a tab with a different base domain
leaves an inner object's invariant intact. -/
theorem innerInv_extend_ne {ts : List Tab} (t : Tab) {bd : String}
    {i : List (String × List Tab)} (hne : ¬ bd = (tabKey t).1)
    (h : (i.map Prod.fst).Nodup ∧
      (∀ sub, ¬ assocGet i sub = none ↔ (bd, sub) ∈ ts.map tabKey) ∧
      (∀ sub arr, assocGet i sub = some arr →
        arr = ts.filter (fun x => decide (tabKey x = (bd, sub))))) :
    (i.map Prod.fst).Nodup ∧
      (∀ sub, ¬ assocGet i sub = none ↔ (bd, sub) ∈ (ts ++ [t]).map tabKey) ∧
      (∀ sub arr, assocGet i sub = some arr →
        arr = (ts ++ [t]).filter (fun x => decide (tabKey x = (bd, sub)))) := by
  obtain ⟨hnd, hmem, harr⟩ := h
  refine ⟨hnd, ?_, ?_⟩
  · intro sub
    rw [hmem sub, mem_map_key_append]
    constructor
    · exact Or.inl
    · intro hc
      rcases hc with hc | hc
      · exact hc
      · exact absurd (congrArg Prod.fst hc) hne
  · intro sub arr hga
    rw [harr sub arr hga, filter_key_append_ne]
    intro hk
    exact hne (by rw [hk])

theorem outerInv_nil : OuterInv [] [] := by
  refine ⟨List.nodup_nil, ?_, ?_⟩
  · intro bd
    simp [assocGet]
  · intro bd i h
    simp [assocGet] at h

/-- One collision-free step of the first pass keeps the fold state
unpolluted and unaborted and re-establishes the invariant. -/
theorem groupStep_inv {ts : List Tab} {o : List (String × List (String × List Tab))}
    (t : Tab) (hbd : jsInherited (tabKey t).1 = false)
    (hsub : jsInherited (tabKey t).2 = false) (inv : OuterInv ts o) :
    ∃ o2, groupStep ⟨o, [], false⟩ t = ⟨o2, [], false⟩ ∧ OuterInv (ts ++ [t]) o2 := by
  have hbdp : ¬ (tabKey t).1 = "__proto__" := by
    intro he
    rw [jsInherited, he] at hbd
    simp at hbd
  have hbdb : protoBuiltin (tabKey t).1 = false := by
    rw [jsInherited] at hbd
    exact (Bool.or_eq_false_iff.mp hbd).2
  have hteta : tabKey t = ((tabKey t).1, (tabKey t).2) := Prod.mk.eta.symm
  rcases hget : assocGet o (tabKey t).1 with _ | i
  · -- the base domain is not yet an own key: a fresh nested binding
    have hBnotin : ∀ sub, ((tabKey t).1, sub) ∉ List.map tabKey ts := by
      intro sub hm
      exact (inv.memK (tabKey t).1).mpr (key_mem_fst (k := ((tabKey t).1, sub)) hm) hget
    refine ⟨o ++ [((tabKey t).1, [((tabKey t).2, [t])])], ?_, ?_, ?_, ?_⟩
    · simp only [groupStep]
      simp only [hget]
      rw [if_neg hbdp]
      rw [if_neg (show ¬ protoBuiltin (tabKey t).1 = true from by
        rw [hbdb]; exact Bool.false_ne_true)]
      simp [assocGet, hsub]
    · rw [List.map_append]
      refine inv.nodupK.append (by simp) ?_
      intro a ha hb
      simp only [List.map_cons, List.map_nil, List.mem_singleton] at hb
      subst hb
      exact absurd ha (assocGet_none_iff.mp hget)
    · intro bd
      rw [mem_map_fst_append]
      rcases hq : assocGet o bd with _ | w
      · rw [assocGet_append_none hq]
        by_cases hb : (tabKey t).1 = bd
        · rw [if_pos hb]
          constructor
          · intro _
            exact Or.inr hb.symm
          · intro _
            simp
        · rw [if_neg hb]
          constructor
          · intro hcon
            exact absurd rfl hcon
          · intro hcon
            rcases hcon with hm | he
            · exact absurd ((inv.memK bd).mpr hm) (by rw [hq]; simp)
            · exact absurd he.symm hb
      · rw [assocGet_append_some hq]
        constructor
        · intro _
          exact Or.inl ((inv.memK bd).mp (by rw [hq]; simp))
        · intro _
          simp
    · intro bd i2 hgi2
      rcases hq : assocGet o bd with _ | w
      · rw [assocGet_append_none hq] at hgi2
        by_cases hb : (tabKey t).1 = bd
        · rw [if_pos hb] at hgi2
          injection hgi2 with hi2
          subst hi2
          subst hb
          refine ⟨by simp, ?_, ?_⟩
          · intro sub
            rw [mem_map_key_append]
            by_cases hs : (tabKey t).2 = sub
            · subst hs
              constructor
              · intro _
                exact Or.inr hteta.symm
              · intro _
                simp [assocGet]
            · rw [show assocGet [((tabKey t).2, [t])] sub = none from by
                simp [assocGet, hs]]
              constructor
              · intro hcon
                exact absurd rfl hcon
              · intro hcon
                rcases hcon with hm | he
                · exact absurd hm (hBnotin sub)
                · exact absurd (congrArg Prod.snd he).symm hs
          · intro sub arr hga
            by_cases hs : (tabKey t).2 = sub
            · subst hs
              rw [show assocGet [((tabKey t).2, [t])] (tabKey t).2 = some [t] from by
                simp [assocGet]] at hga
              injection hga with ha
              subst ha
              rw [filter_key_append_self t hteta, filter_key_nil (hBnotin (tabKey t).2),
                List.nil_append]
            · rw [show assocGet [((tabKey t).2, [t])] sub = none from by
                simp [assocGet, hs]] at hga
              exact absurd hga (by simp)
        · rw [if_neg hb] at hgi2
          exact absurd hgi2 (by simp)
      · rw [assocGet_append_some hq] at hgi2
        injection hgi2 with hi2
        subst hi2
        have hb : ¬ bd = (tabKey t).1 := by
          intro he
          rw [he, hget] at hq
          exact absurd hq (by simp)
        exact innerInv_extend_ne t hb (inv.innerInv bd w hq)
  · have hBne : ¬ assocGet o (tabKey t).1 = none := by rw [hget]; simp
    rcases hgi : assocGet i (tabKey t).2 with _ | arr
    · -- a new subdomain under an existing base domain
      obtain ⟨hnd, hmem, harr⟩ := inv.innerInv (tabKey t).1 i hget
      have hSnotin : ((tabKey t).1, (tabKey t).2) ∉ List.map tabKey ts := by
        intro hm
        exact (hmem (tabKey t).2).mpr hm hgi
      refine ⟨assocSet o (tabKey t).1 (assocSet i (tabKey t).2 [t]), ?_, ?_, ?_, ?_⟩
      · simp only [groupStep]
        simp only [hget, hgi]
        simp [assocGet, hsub]
      · rw [assocSet_keys_mem hBne]
        exact inv.nodupK
      · intro bd
        rw [mem_map_fst_append]
        by_cases hb : bd = (tabKey t).1
        · subst hb
          rw [assocGet_set_self]
          constructor
          · intro _
            exact Or.inr rfl
          · intro _
            simp
        · rw [assocGet_set_ne hb, inv.memK bd]
          constructor
          · exact Or.inl
          · intro hmm
            rcases hmm with hm | he
            · exact hm
            · exact absurd he hb
      · intro bd i2 hgi2
        by_cases hb : bd = (tabKey t).1
        · subst hb
          rw [assocGet_set_self] at hgi2
          injection hgi2 with hi2
          subst hi2
          rw [assocSet_not_mem hgi]
          refine ⟨?_, ?_, ?_⟩
          · rw [List.map_append]
            refine hnd.append (by simp) ?_
            intro a ha hb2
            simp only [List.map_cons, List.map_nil, List.mem_singleton] at hb2
            subst hb2
            exact absurd ha (assocGet_none_iff.mp hgi)
          · intro sub
            rw [mem_map_key_append]
            rcases hq2 : assocGet i sub with _ | w
            · rw [assocGet_append_none hq2]
              by_cases hs : (tabKey t).2 = sub
              · rw [if_pos hs]
                constructor
                · intro _
                  exact Or.inr (hs ▸ hteta.symm)
                · intro _
                  simp
              · rw [if_neg hs]
                constructor
                · intro hcon
                  exact absurd rfl hcon
                · intro hmm
                  rcases hmm with hm | he
                  · exact absurd ((hmem sub).mpr hm) (by rw [hq2]; simp)
                  · exact absurd (congrArg Prod.snd he).symm hs
            · rw [assocGet_append_some hq2]
              constructor
              · intro _
                exact Or.inl ((hmem sub).mp (by rw [hq2]; simp))
              · intro _
                simp
          · intro sub arr2 hga
            rcases hq2 : assocGet i sub with _ | w
            · rw [assocGet_append_none hq2] at hga
              by_cases hs : (tabKey t).2 = sub
              · rw [if_pos hs] at hga
                injection hga with ha
                subst ha
                subst hs
                rw [filter_key_append_self t hteta, filter_key_nil hSnotin, List.nil_append]
              · rw [if_neg hs] at hga
                exact absurd hga (by simp)
            · rw [assocGet_append_some hq2] at hga
              injection hga with ha
              subst ha
              rw [harr sub w hq2, filter_key_append_ne]
              intro hk
              have hs : (tabKey t).2 = sub := congrArg Prod.snd hk
              rw [← hs, hgi] at hq2
              exact absurd hq2 (by simp)
        · rw [assocGet_set_ne hb] at hgi2
          exact innerInv_extend_ne t hb (inv.innerInv bd i2 hgi2)
    · -- the key already has a bucket: append to it
      obtain ⟨hnd, hmem, harr⟩ := inv.innerInv (tabKey t).1 i hget
      refine ⟨assocSet o (tabKey t).1 (assocSet i (tabKey t).2 (arr ++ [t])), ?_, ?_, ?_, ?_⟩
      · simp only [groupStep]
        simp only [hget, hgi]
        rfl
      · rw [assocSet_keys_mem hBne]
        exact inv.nodupK
      · intro bd
        rw [mem_map_fst_append]
        by_cases hb : bd = (tabKey t).1
        · subst hb
          rw [assocGet_set_self]
          constructor
          · intro _
            exact Or.inr rfl
          · intro _
            simp
        · rw [assocGet_set_ne hb, inv.memK bd]
          constructor
          · exact Or.inl
          · intro hmm
            rcases hmm with hm | he
            · exact hm
            · exact absurd he hb
      · intro bd i2 hgi2
        by_cases hb : bd = (tabKey t).1
        · subst hb
          rw [assocGet_set_self] at hgi2
          injection hgi2 with hi2
          subst hi2
          have hSne : ¬ assocGet i (tabKey t).2 = none := by rw [hgi]; simp
          refine ⟨?_, ?_, ?_⟩
          · rw [assocSet_keys_mem hSne]
            exact hnd
          · intro sub
            rw [mem_map_key_append]
            by_cases hs : sub = (tabKey t).2
            · subst hs
              rw [assocGet_set_self]
              constructor
              · intro _
                exact Or.inl ((hmem (tabKey t).2).mp hSne)
              · intro _
                simp
            · rw [assocGet_set_ne hs, hmem sub]
              constructor
              · exact Or.inl
              · intro hmm
                rcases hmm with hm | he
                · exact hm
                · exact absurd (show sub = (tabKey t).2 from congrArg Prod.snd he) hs
          · intro sub arr2 hga
            by_cases hs : sub = (tabKey t).2
            · subst hs
              rw [assocGet_set_self] at hga
              injection hga with ha
              subst ha
              rw [filter_key_append_self t hteta, harr (tabKey t).2 arr hgi]
            · rw [assocGet_set_ne hs] at hga
              rw [harr sub arr2 hga, filter_key_append_ne]
              intro hk
              exact hs (congrArg Prod.snd hk).symm
        · rw [assocGet_set_ne hb] at hgi2
          exact innerInv_extend_ne t hb (inv.innerInv bd i2 hgi2)

/-- A collision-free first pass never pollutes the prototype and never
aborts, and its final state satisfies the invariant. -/
theorem groupFold_inv :
    ∀ (rest ts : List Tab) (o : List (String × List (String × List Tab))),
      (∀ t ∈ rest, jsInherited (tabKey t).1 = false ∧ jsInherited (tabKey t).2 = false) →
      OuterInv ts o →
      ∃ o2, List.foldl groupStep ⟨o, [], false⟩ rest = ⟨o2, [], false⟩ ∧
        OuterInv (ts ++ rest) o2 := by
  intro rest
  induction rest with
  | nil =>
    intro ts o _ inv
    exact ⟨o, rfl, by simpa using inv⟩
  | cons t rest ih =>
    intro ts o h inv
    obtain ⟨o1, he, inv1⟩ := groupStep_inv t (h t (List.mem_cons_self _ _)).1
      (h t (List.mem_cons_self _ _)).2 inv
    rw [List.foldl_cons, he]
    obtain ⟨o2, he2, inv2⟩ := ih (ts ++ [t]) o1
      (fun x hx => h x (List.mem_cons_of_mem _ hx)) inv1
    refine ⟨o2, he2, ?_⟩
    rwa [List.append_assoc, List.singleton_append] at inv2

theorem sort_eq_of_mem_iff {l1 l2 : List String} (h1 : l1.Nodup) (h2 : l2.Nodup)
    (hm : ∀ x, x ∈ l1 ↔ x ∈ l2) :
    List.insertionSort strLE l1 = List.insertionSort strLE l2 := by
  apply List.eq_of_perm_of_sorted ?_ (List.sorted_insertionSort _ _)
    (List.sorted_insertionSort _ _)
  exact (List.perm_insertionSort _ _).trans
    (((List.perm_ext_iff_of_nodup h1 h2).mpr hm).trans (List.perm_insertionSort _ _).symm)

theorem flatten_nested {α : Type} (g : String × String → List α) :
    ∀ (bds : List String) (f : String → List String),
      ((bds.map (fun bd => ((f bd).map (fun sub => g (bd, sub))).flatten)).flatten)
        = (((bds.map (fun bd => (f bd).map (fun sub => (bd, sub)))).flatten).map g).flatten := by
  intro bds
  induction bds with
  | nil => intro f; rfl
  | cons bd bds ih =>
    intro f
    simp only [List.map_cons, List.flatten_cons, List.map_append, List.flatten_append, ih f,
      List.map_map]
    rfl

theorem sortedBds_nodup (tabs : List Tab) : (sortedBds tabs).Nodup :=
  (List.perm_insertionSort _ _).nodup_iff.mpr (List.nodup_dedup _)

theorem sortedSubs_nodup (tabs : List Tab) (bd : String) : (sortedSubs tabs bd).Nodup :=
  (List.perm_insertionSort _ _).nodup_iff.mpr (List.nodup_dedup _)

theorem mem_sortedBds {tabs : List Tab} {bd : String} :
    bd ∈ sortedBds tabs ↔ bd ∈ tabs.map (fun t => (tabKey t).1) := by
  rw [sortedBds, (List.perm_insertionSort _ _).mem_iff, List.mem_dedup]

theorem mem_sortedSubs {tabs : List Tab} {bd sub : String} :
    sub ∈ sortedSubs tabs bd ↔ (bd, sub) ∈ tabs.map tabKey := by
  rw [sortedSubs, (List.perm_insertionSort _ _).mem_iff, List.mem_dedup]
  constructor
  · intro h
    rcases List.mem_map.mp h with ⟨x, hx, rfl⟩
    obtain ⟨hxm, hxf⟩ := List.mem_filter.mp hx
    rw [beq_iff_eq] at hxf
    refine List.mem_map.mpr ⟨x, hxm, ?_⟩
    rw [← hxf]
  · intro h
    rcases List.mem_map.mp h with ⟨x, hx, hk⟩
    refine List.mem_map.mpr ⟨x, List.mem_filter.mpr ⟨hx, ?_⟩, ?_⟩
    · rw [beq_iff_eq]
      exact congrArg Prod.fst hk
    · exact congrArg Prod.snd hk

theorem keysOf_nodup (tabs : List Tab) : (keysOf tabs).Nodup := by
  rw [keysOf]
  have hall : ∀ bds : List String, bds.Nodup →
      (((bds.map (fun bd => (sortedSubs tabs bd).map (fun sub => (bd, sub)))).flatten)).Nodup := by
    intro bds
    induction bds with
    | nil => intro _; simp
    | cons bd bds ih =>
      intro hnd
      obtain ⟨hbni, hnd2⟩ := List.nodup_cons.mp hnd
      rw [List.map_cons, List.flatten_cons]
      refine List.Nodup.append ?_ (ih hnd2) ?_
      · exact (sortedSubs_nodup tabs bd).map (fun a b hab => congrArg Prod.snd hab)
      · intro a ha hb
        rcases List.mem_map.mp ha with ⟨s1, -, rfl⟩
        rcases List.mem_flatten.mp hb with ⟨l, hl, hal⟩
        rcases List.mem_map.mp hl with ⟨bd2, hbd2, rfl⟩
        rcases List.mem_map.mp hal with ⟨s2, -, he⟩
        have hbe : bd2 = bd := congrArg Prod.fst he
        subst hbe
        exact hbni hbd2
  exact hall (sortedBds tabs) (sortedBds_nodup tabs)

theorem keysOf_covers {tabs : List Tab} : ∀ t ∈ tabs, tabKey t ∈ keysOf tabs := by
  intro t ht
  rw [keysOf]
  apply List.mem_flatten.mpr
  refine ⟨(sortedSubs tabs (tabKey t).1).map (fun sub => ((tabKey t).1, sub)), ?_, ?_⟩
  · exact List.mem_map.mpr ⟨(tabKey t).1, mem_sortedBds.mpr (List.mem_map_of_mem _ ht), rfl⟩
  · refine List.mem_map.mpr ⟨(tabKey t).2, ?_, Prod.mk.eta⟩
    exact mem_sortedSubs.mpr (List.mem_map.mpr ⟨t, ht, Prod.mk.eta.symm⟩)

theorem keysOf_sorted (tabs : List Tab) : List.Pairwise keyLE (keysOf tabs) := by
  rw [keysOf, List.pairwise_flatten]
  constructor
  · intro l hl
    rcases List.mem_map.mp hl with ⟨bd, -, rfl⟩
    rw [List.pairwise_map]
    apply List.Pairwise.imp ?_ (List.sorted_insertionSort strLE _)
    intro s1 s2 h12
    exact Or.inr ⟨rfl, h12⟩
  · rw [List.pairwise_map]
    have hs : List.Pairwise strLE (sortedBds tabs) := List.sorted_insertionSort _ _
    have hn : List.Pairwise (fun a b : String => a ≠ b) (sortedBds tabs) := sortedBds_nodup tabs
    apply List.Pairwise.imp ?_ (hs.and hn)
    intro b1 b2 hb x hx y hy
    rcases List.mem_map.mp hx with ⟨s1, -, rfl⟩
    rcases List.mem_map.mp hy with ⟨s2, -, rfl⟩
    refine Or.inl (lt_of_le_of_ne hb.1 ?_)
    intro he
    apply hb.2
    rcases b1 with ⟨c1⟩
    rcases b2 with ⟨c2⟩
    have he2 : c1 = c2 := he
    rw [he2]

/-- The second pass emits exactly the collision-free reorder. -/
theorem groupEmit_eq {ts : List Tab} {o : List (String × List (String × List Tab))}
    (inv : OuterInv ts o) : groupEmit o = groupOrder ts := by
  have hbds : List.insertionSort strLE (o.map Prod.fst) =
      List.insertionSort strLE ((ts.map (fun t => (tabKey t).1)).dedup) := by
    apply sort_eq_of_mem_iff inv.nodupK (List.nodup_dedup _)
    intro bd
    rw [List.mem_dedup]
    constructor
    · intro hk
      refine (inv.memK bd).mp ?_
      rw [assocGet_none_iff]
      exact not_not_intro hk
    · intro hm
      have h1 := (inv.memK bd).mpr hm
      by_contra hk
      exact h1 (assocGet_none_iff.mpr hk)
  rw [groupEmit, groupOrder, domainBuckets, keysOf]
  rw [← flatten_nested (fun k => ts.filter (fun t => decide (tabKey t = k)))
    (sortedBds ts) (fun bd => sortedSubs ts bd)]
  rw [show List.insertionSort strLE (o.map Prod.fst) = sortedBds ts from hbds]
  congr 1
  apply List.map_congr_left
  intro bd hbd
  have hbdm : bd ∈ ts.map (fun t => (tabKey t).1) := mem_sortedBds.mp hbd
  have hne : ¬ assocGet o bd = none := (inv.memK bd).mpr hbdm
  rcases hg : assocGet o bd with _ | inner
  · exact absurd hg hne
  obtain ⟨hnd, hmem, harr⟩ := inv.innerInv bd inner hg
  show ((List.insertionSort strLE (inner.map Prod.fst)).map (fun sub =>
      match assocGet inner sub with
      | none => []
      | some arr => arr)).flatten = _
  have hsubs : List.insertionSort strLE (inner.map Prod.fst) = sortedSubs ts bd := by
    apply sort_eq_of_mem_iff hnd (List.nodup_dedup _)
    intro sub
    rw [show (sub ∈ ((ts.filter (fun t => (tabKey t).1 == bd)).map
        (fun t => (tabKey t).2)).dedup) ↔ (bd, sub) ∈ ts.map tabKey from by
      rw [← mem_sortedSubs, sortedSubs, (List.perm_insertionSort _ _).mem_iff]]
    rw [← hmem sub]
    constructor
    · intro hk
      rw [assocGet_none_iff]
      exact not_not_intro hk
    · intro h1
      by_contra hk
      exact h1 (assocGet_none_iff.mpr hk)
  rw [hsubs]
  congr 1
  apply List.map_congr_left
  intro sub hsub
  have hksm : (bd, sub) ∈ ts.map tabKey := mem_sortedSubs.mp hsub
  have hne2 : ¬ assocGet inner sub = none := (hmem sub).mpr hksm
  rcases hg2 : assocGet inner sub with _ | arr
  · exact absurd hg2 hne2
  exact harr sub arr hg2

theorem groupOrder_perm (tabs : List Tab) : (groupOrder tabs).Perm tabs := by
  unfold groupOrder domainBuckets
  exact buckets_perm _ tabs (keysOf_nodup tabs) keysOf_covers

theorem groupOrder_stable (tabs : List Tab) (k : String × String) :
    (groupOrder tabs).filter (fun t => decide (tabKey t = k)) =
      tabs.filter (fun t => decide (tabKey t = k)) := by
  by_cases hk : k ∈ keysOf tabs
  · exact buckets_filter_eq _ tabs k (keysOf_nodup tabs) hk
  · show ((keysOf tabs).map
        (fun q => tabs.filter (fun t => decide (tabKey t = q)))).flatten.filter
          (fun t => decide (tabKey t = k)) = _
    rw [buckets_filter_nil _ tabs k hk]
    symm
    rw [List.filter_eq_nil_iff]
    intro t ht hdk
    rw [decide_eq_true_eq] at hdk
    exact hk (hdk ▸ keysOf_covers t ht)

theorem groupOrder_sorted (tabs : List Tab) :
    List.Sorted (fun x y => keyLE (tabKey x) (tabKey y)) (groupOrder tabs) := by
  unfold groupOrder domainBuckets
  rw [List.Sorted, List.pairwise_flatten]
  constructor
  · intro l hl
    rcases List.mem_map.mp hl with ⟨k, -, rfl⟩
    apply List.pairwise_of_forall_mem_list
    intro x hx y hy
    have hx' := (List.mem_filter.mp hx).2
    have hy' := (List.mem_filter.mp hy).2
    rw [decide_eq_true_eq] at hx' hy'
    rw [hx', hy']
    exact Or.inr ⟨rfl, le_refl _⟩
  · rw [List.pairwise_map]
    apply List.Pairwise.imp ?_ (keysOf_sorted tabs)
    intro k1 k2 hk x hx y hy
    have hx' := (List.mem_filter.mp hx).2
    have hy' := (List.mem_filter.mp hy).2
    rw [decide_eq_true_eq] at hx' hy'
    rw [hx', hy']
    exact hk

theorem sortedBds_perm_inv {tabs g : List Tab} (hperm : g.Perm tabs) :
    sortedBds g = sortedBds tabs := by
  apply sort_eq_of_mem_iff (List.nodup_dedup _) (List.nodup_dedup _)
  intro x
  simp only [List.mem_dedup]
  exact (hperm.map _).mem_iff

theorem sortedSubs_perm_inv {tabs g : List Tab} (hperm : g.Perm tabs) (bd : String) :
    sortedSubs g bd = sortedSubs tabs bd := by
  apply sort_eq_of_mem_iff (List.nodup_dedup _) (List.nodup_dedup _)
  intro x
  simp only [List.mem_dedup]
  exact ((hperm.filter _).map _).mem_iff

theorem keysOf_perm_inv {tabs g : List Tab} (hperm : g.Perm tabs) :
    keysOf g = keysOf tabs := by
  unfold keysOf
  rw [sortedBds_perm_inv hperm]
  congr 1
  apply List.map_congr_left
  intro bd _
  rw [sortedSubs_perm_inv hperm]

theorem groupOrder_idem (tabs : List Tab) : groupOrder (groupOrder tabs) = groupOrder tabs := by
  have hperm := groupOrder_perm tabs
  show ((keysOf (groupOrder tabs)).map
      (fun k => (groupOrder tabs).filter (fun t => decide (tabKey t = k)))).flatten
    = groupOrder tabs
  rw [keysOf_perm_inv hperm]
  rw [show (keysOf tabs).map
      (fun k => (groupOrder tabs).filter (fun t => decide (tabKey t = k)))
    = (keysOf tabs).map (fun k => tabs.filter (fun t => decide (tabKey t = k))) from
    List.map_congr_left (fun k _ => groupOrder_stable tabs k)]
  rfl

/-- When every URL parses and no key collides with an inherited object
property, the source pass computes exactly the collision-free reorder. -/
theorem groupTabs_clean {tabs : List Tab}
    (hp : tabs.all (fun t => (parseUrlChars t.url.data).isSome) = true)
    (hc : tabs.all (fun t => !jsInherited (tabKey t).1 && !jsInherited (tabKey t).2) = true) :
    groupTabs tabs = some (groupOrder tabs) := by
  have hclean : ∀ t ∈ tabs,
      jsInherited (tabKey t).1 = false ∧ jsInherited (tabKey t).2 = false := by
    intro t ht
    have h1 := List.all_eq_true.mp hc t ht
    simp only [Bool.and_eq_true, Bool.not_eq_true'] at h1
    exact h1
  obtain ⟨o2, hfold, inv⟩ := groupFold_inv tabs [] [] hclean outerInv_nil
  rw [List.nil_append] at inv
  unfold groupTabs
  rw [if_pos hp]
  show (if (tabs.foldl groupStep ⟨[], [], false⟩).aborted = true then none
    else some (groupEmit (tabs.foldl groupStep ⟨[], [], false⟩).outer))
    = some (groupOrder tabs)
  rw [hfold]
  rw [if_neg (by simp)]
  rw [groupEmit_eq inv]

/-- C2 counterexample: with every URL parseable the pass can still drop
a tab.  The single tab with hostname `__proto__` reads the inherited
prototype accessor (truthy), never becomes an own key of the grouping
object, and `Object.keys` does not enumerate it, so the computed order
is empty — a strict filter of the input, not a permutation. -/
theorem claim_C2_counterexample :
    groupTabs [(⟨1, "http://__proto__/x"⟩ : Tab)] = some [] ∧
    ¬ ([] : List Tab).Perm [(⟨1, "http://__proto__/x"⟩ : Tab)] :=
  ⟨by decide, fun hp => absurd hp.length_eq (by decide)⟩

/-- C2 (amended): whenever every tab URL parses and no tab's baseDomain
or subdomain collides with an inherited property of a plain object
(`__proto__` or an `Object.prototype` method name), the grouped order
is a permutation of the input — same multiset of tabs and of ids, same
length, never a filter — and grouping is idempotent: grouping the
grouped list returns it unchanged. -/
theorem claim_C2 (tabs g : List Tab)
    (hc : tabs.all (fun t => !jsInherited (tabKey t).1 && !jsInherited (tabKey t).2) = true)
    (h : groupTabs tabs = some g) :
    g.Perm tabs ∧ (g.map Tab.id).Perm (tabs.map Tab.id) ∧ g.length = tabs.length ∧
    groupTabs g = some g := by
  by_cases hp : tabs.all (fun t => (parseUrlChars t.url.data).isSome) = true
  · rw [groupTabs_clean hp hc, Option.some_inj] at h
    subst h
    have hperm := groupOrder_perm tabs
    refine ⟨hperm, hperm.map _, hperm.length_eq, ?_⟩
    have hp2 : (groupOrder tabs).all (fun t => (parseUrlChars t.url.data).isSome) = true := by
      rw [List.all_eq_true] at hp ⊢
      intro t ht
      exact hp t (hperm.mem_iff.mp ht)
    have hc2 : (groupOrder tabs).all
        (fun t => !jsInherited (tabKey t).1 && !jsInherited (tabKey t).2) = true := by
      rw [List.all_eq_true] at hc ⊢
      intro t ht
      exact hc t (hperm.mem_iff.mp ht)
    rw [groupTabs_clean hp2 hc2, groupOrder_idem]
  · unfold groupTabs at h
    rw [if_neg hp] at h
    exact absurd h (by simp)

theorem claim_C2_witness :
    ([(⟨1, "http://b.com/"⟩ : Tab), ⟨2, "http://a.com/"⟩].all
        (fun t => !jsInherited (tabKey t).1 && !jsInherited (tabKey t).2) = true) ∧
    groupTabs [(⟨1, "http://b.com/"⟩ : Tab), ⟨2, "http://a.com/"⟩]
        = some [⟨2, "http://a.com/"⟩, ⟨1, "http://b.com/"⟩] ∧
    (([⟨2, "http://a.com/"⟩, ⟨1, "http://b.com/"⟩] : List Tab).Perm
        [⟨1, "http://b.com/"⟩, ⟨2, "http://a.com/"⟩] ∧
      (([⟨2, "http://a.com/"⟩, ⟨1, "http://b.com/"⟩] : List Tab).map Tab.id).Perm
        (([⟨1, "http://b.com/"⟩, ⟨2, "http://a.com/"⟩] : List Tab).map Tab.id) ∧
      ([⟨2, "http://a.com/"⟩, ⟨1, "http://b.com/"⟩] : List Tab).length
        = ([⟨1, "http://b.com/"⟩, ⟨2, "http://a.com/"⟩] : List Tab).length ∧
      groupTabs [(⟨2, "http://a.com/"⟩ : Tab), ⟨1, "http://b.com/"⟩]
        = some [⟨2, "http://a.com/"⟩, ⟨1, "http://b.com/"⟩]) :=
  ⟨by decide, by decide, claim_C2 [⟨1, "http://b.com/"⟩, ⟨2, "http://a.com/"⟩]
    [⟨2, "http://a.com/"⟩, ⟨1, "http://b.com/"⟩] (by decide) (by decide)⟩

/-- C6 counterexample: with every URL parseable, the bucket of the key
(`__proto__`, empty subdomain) is never emitted: its tab is pushed into
`Object.prototype` instead of an own key, so the emitted output loses
the bucket entirely rather than placing it in sorted position. -/
theorem claim_C6_counterexample :
    groupTabs [(⟨7, "http://__proto__/a"⟩ : Tab)] = some [] ∧
    tabKey (⟨7, "http://__proto__/a"⟩ : Tab) = ("__proto__", "") ∧
    ¬ (([] : List Tab).filter (fun t => decide (tabKey t = ("__proto__", ""))) =
        [(⟨7, "http://__proto__/a"⟩ : Tab)].filter
          (fun t => decide (tabKey t = ("__proto__", "")))) :=
  ⟨by decide, by decide, by decide⟩

/-- C6 (amended): whenever every tab URL parses and no tab's baseDomain
or subdomain collides with an inherited property of a plain object
(`__proto__` or an `Object.prototype` method name), the grouped order
is sorted by ascending base domain and, within equal base domains,
ascending subdomain (the lexicographic key order), and it is a stable
partition: for every key, the tabs with that key appear in their
original relative input order. -/
theorem claim_C6 (tabs g : List Tab)
    (hc : tabs.all (fun t => !jsInherited (tabKey t).1 && !jsInherited (tabKey t).2) = true)
    (h : groupTabs tabs = some g) :
    List.Sorted (fun x y => keyLE (tabKey x) (tabKey y)) g ∧
    ∀ k : String × String,
      g.filter (fun t => decide (tabKey t = k)) =
        tabs.filter (fun t => decide (tabKey t = k)) := by
  by_cases hp : tabs.all (fun t => (parseUrlChars t.url.data).isSome) = true
  · rw [groupTabs_clean hp hc, Option.some_inj] at h
    subst h
    exact ⟨groupOrder_sorted tabs, fun k => groupOrder_stable tabs k⟩
  · unfold groupTabs at h
    rw [if_neg hp] at h
    exact absurd h (by simp)

theorem claim_C6_witness :
    ([(⟨1, "http://b.com/"⟩ : Tab), ⟨2, "http://a.com/"⟩].all
        (fun t => !jsInherited (tabKey t).1 && !jsInherited (tabKey t).2) = true) ∧
    groupTabs [(⟨1, "http://b.com/"⟩ : Tab), ⟨2, "http://a.com/"⟩]
        = some [⟨2, "http://a.com/"⟩, ⟨1, "http://b.com/"⟩] ∧
    (List.Sorted (fun x y => keyLE (tabKey x) (tabKey y))
        ([⟨2, "http://a.com/"⟩, ⟨1, "http://b.com/"⟩] : List Tab) ∧
      ∀ k : String × String,
        ([⟨2, "http://a.com/"⟩, ⟨1, "http://b.com/"⟩] : List Tab).filter
            (fun t => decide (tabKey t = k)) =
          ([⟨1, "http://b.com/"⟩, ⟨2, "http://a.com/"⟩] : List Tab).filter
            (fun t => decide (tabKey t = k))) :=
  ⟨by decide, by decide, claim_C6 [⟨1, "http://b.com/"⟩, ⟨2, "http://a.com/"⟩]
    [⟨2, "http://a.com/"⟩, ⟨1, "http://b.com/"⟩] (by decide) (by decide)⟩

theorem extract_fold (l : List (List Char)) (acc : List (List Char)) :
    l.foldl (fun acc m => if isValidUrlChars m then acc ++ [sanitizeUrlChars m] else acc) acc
      = acc ++ (l.filter isValidUrlChars).map sanitizeUrlChars := by
  induction l generalizing acc with
  | nil => simp
  | cons m l ih =>
    by_cases hv : isValidUrlChars m = true
    · simp [hv, ih, List.filter_cons]
    · simp [hv, ih, List.filter_cons]

theorem sanitize_valid_ne_nil {m : List Char} (hv : isValidUrlChars m = true) :
    sanitizeUrlChars m ≠ [] := by
  unfold isValidUrlChars at hv
  rcases hp : parseUrlChars m with _ | u
  · rw [hp] at hv
    simp at hv
  · rw [hp] at hv
    simp only [Bool.and_eq_true] at hv
    have ha : allowedProtocol u = true := hv.1.1
    obtain ⟨hsch, hlow, hne, hhost, hhlow, hpath⟩ := parse_wf hp
    have hde : sanitizeUrlChars m = stripAll (serializeUrl u) := by
      simp [sanitizeUrlChars, hp, ha]
    rw [hde]
    rcases hu : u.scheme with _ | ⟨c, cs⟩
    · rw [hu] at hsch
      simp [validScheme] at hsch
    · have hcr : schemeRestChar c = true := by
        rw [hu] at hsch
        simp only [validScheme, Bool.and_eq_true] at hsch
        simp [schemeRestChar, isAlnumCh, hsch.1]
      have hser : serializeUrl u =
          c :: (cs ++ ':' :: '/' :: '/' :: (u.host ++ u.path ++ u.query ++ u.frag)) := by
        simp [serializeUrl, hu]
      rw [hser, stripAll_cons_clean (schemeRest_clean hcr).2.1 (schemeRest_clean hcr).1]
      exact List.cons_ne_nil _ _

/-- C7: extractUrls returns exactly the regex matches that pass
isValidUrl, each sanitized, in their order of appearance in the text
(the trailing `.filter(Boolean)` drops nothing because sanitizing a
valid URL never yields an empty string); on the spec's concrete input it
returns the two sanitized URLs with their trailing-slash normalization,
in source order. -/
theorem claim_C7 :
    (∀ text : String, extractUrls text =
      ((scanUrls text.data).filter isValidUrlChars).map
        (fun m => String.mk (sanitizeUrlChars m))) ∧
    extractUrls "visit https://a.com and https://b.co.uk now" =
      ["https://a.com/", "https://b.co.uk/"] := by
  constructor
  · intro text
    unfold extractUrls
    rw [extract_fold, List.nil_append]
    have hfe : (((scanUrls text.data).filter isValidUrlChars).map sanitizeUrlChars).filter
        (fun s => !s.isEmpty)
        = ((scanUrls text.data).filter isValidUrlChars).map sanitizeUrlChars := by
      rw [List.filter_eq_self]
      intro s hs
      rcases List.mem_map.mp hs with ⟨m, hm, rfl⟩
      have hv := (List.mem_filter.mp hm).2
      have hne := sanitize_valid_ne_nil hv
      simpa using hne
    rw [hfe, List.map_map]
    rfl
  · decide

end TabTools
